import Mathlib

/-!
# Verification of the serde-bencode codec

A shallow embedding, in Lean 4, of the core of the `serde_bencode` Rust crate
(the modules `src/ser.rs`, `src/ser/string.rs`, `src/de.rs`, `src/value.rs`,
`src/error.rs` — the modules re-exported by `src/lib.rs`), together with proofs
of the behavioural properties stated in the crate's specification.

Conventions of the embedding:
* Rust byte buffers (`Vec<u8>`, `&[u8]`) are `List Nat`; each element stands
  for one byte.  Machine-integer ranges (`u8 < 256`, `i64` range, `usize`
  range) are imposed by explicit side conditions where they matter.
* The serializer's mutable output buffer (`Serializer { buf: Vec<u8> }`) is
  threaded explicitly: a method taking `&mut self` becomes a function from the
  current buffer to the new buffer (plus an `Except` result when the method
  can fail).
* The deserializer's reader is a cursor into the input list: each parsing
  function returns the parsed datum together with the not-yet-consumed
  suffix of the input.  The one-token pushback slot `Deserializer.next` is
  always filled and then immediately emptied by the very next `parse()` call
  (see `SeqAccess::next_element_seed`, `MapAccess::next_key_seed` in
  `de.rs`), so in this pure embedding a "push back token `t`, then parse"
  sequence is rendered as dispatching directly on `t` with the reader
  unmoved, which is observationally identical.
* Error values: `error.rs` defines a closed set of error kinds, each carrying
  a human-readable message.  The messages are irrelevant to every property
  proved here (and to the spec's claims, which speak only of kinds), so the
  embedding keeps the kinds and drops the message payloads.
-/

/-- The error taxonomy of `src/error.rs` (message payloads omitted). -/

inductive Error where
  | ioError
  | invalidType
  | invalidValue
  | invalidLength
  | unknownVariant
  | unknownField
  | missingField
  | duplicateField
  | custom
  | endOfStream
deriving DecidableEq, Repr

/-! ## ASCII byte helpers and decimal digit spans -/

/-- Is the byte an ASCII decimal digit (`b'0'..=b'9'`)? -/

def isDigitByte (b : Nat) : Bool := 48 ≤ b && b ≤ 57

/-- Numeric value of a span of ASCII digit bytes, most significant first
(the accumulator loop of Rust's integer `FromStr`). -/

def digitsVal (ds : List Nat) : Nat := ds.foldl (fun a d => a * 10 + (d - 48)) 0

/-- Fueled decimal printer: ASCII digits of `n`, most significant first.
The fuel argument only makes the `n / 10` recursion structural; `fuel > n`
always suffices (`encNatF_eq`). -/

def encNatF : Nat → Nat → List Nat
  | 0, _ => []
  | fuel + 1, n => if n < 10 then [48 + n] else encNatF fuel (n / 10) ++ [48 + n % 10]

/-- ASCII decimal digits of `n` (the bytes `Display for u64`/`usize` emits). -/

def encNat (n : Nat) : List Nat := encNatF (n + 1) n

/-- ASCII bytes of `i64::to_string`: optional `-`, then decimal digits. -/

def encInt (i : Int) : List Nat := if i < 0 then 45 :: encNat i.natAbs else encNat i.toNat

/-- `Serializer::serialize_bytes` output for content `s`: decimal length,
`:`, then the raw bytes (`ser.rs` lines 239-244). -/

def encBytes (s : List Nat) : List Nat := encNat s.length ++ 58 :: s

/-! ## Lexicographic byte-string order (`Ord for Vec<u8>`) -/

/-- `a.cmp(b) != Greater` for byte vectors: lexicographic comparison, a
proper prefix ordering before longer strings.  This is the comparator used
by `entries.sort_by(|(a,_),(b,_)| a.cmp(b))` in `SerializeMap::end_map`. -/

def lexLe : List Nat → List Nat → Bool
  | [], _ => true
  | _ :: _, [] => false
  | a :: as', b :: bs' => if a < b then true else if b < a then false else lexLe as' bs'

/-- Key order on buffered `(key, value)` pairs: compare the keys only. -/

def keyLe {α : Type} (x y : List Nat × α) : Prop := lexLe x.1 y.1 = true

instance {α : Type} : DecidableRel (@keyLe α) :=
  fun x y => inferInstanceAs (Decidable (lexLe x.1 y.1 = true))

instance {α : Type} : IsTotal (List Nat × α) keyLe := by
  constructor
  intro x y
  show lexLe x.1 y.1 = true ∨ lexLe y.1 x.1 = true
  generalize x.1 = a
  generalize y.1 = b

  induction a generalizing b with
  | nil => exact Or.inl rfl
  | cons x xs ih =>
    cases b with
    | nil => exact Or.inr rfl
    | cons y ys =>
      by_cases hxy : x < y
      · exact Or.inl (by simp [lexLe, hxy])
      · by_cases hyx : y < x
        · exact Or.inr (by simp [lexLe, hyx, Nat.not_lt.mpr (Nat.le_of_lt hyx)])
        · have hky : ¬ x < y := hxy
          rcases ih ys with h | h
          · exact Or.inl (by simp [lexLe, hxy, hyx, h])
          · exact Or.inr (by simp [lexLe, hxy, hyx, h])

instance {α : Type} : IsTrans (List Nat × α) keyLe := by
  constructor
  intro x y z h1 h2
  show lexLe x.1 z.1 = true
  revert h1 h2
  show lexLe x.1 y.1 = true → lexLe y.1 z.1 = true → lexLe x.1 z.1 = true
  generalize x.1 = a
  generalize y.1 = b
  generalize z.1 = c
  intro h1 h2

  induction a generalizing b c with
  | nil => rfl
  | cons x xs ih =>
    cases b with
    | nil => simp [lexLe] at h1
    | cons y ys =>
      cases c with
      | nil => simp [lexLe] at h2
      | cons z zs =>
        simp only [lexLe] at h1 h2 ⊢
        by_cases hxy : x < y <;> by_cases hyz : y < z
        · simp [hxy] at h1; simp [Nat.lt_trans hxy hyz]
        · simp only [hyz, if_false] at h2
          by_cases hzy : z < y
          · simp [hzy] at h2
          · have : y = z := Nat.le_antisymm (Nat.le_of_not_lt hzy) (Nat.le_of_not_lt hyz)
            subst this; simp [hxy]
        · simp only [hxy, if_false] at h1
          by_cases hyx : y < x
          · simp [hyx] at h1
          · have : x = y := Nat.le_antisymm (Nat.le_of_not_lt hyx) (Nat.le_of_not_lt hxy)
            subst this; simp [hyz]
        · simp only [hxy, if_false] at h1
          simp only [hyz, if_false] at h2
          by_cases hyx : y < x
          · simp [hyx] at h1
          · by_cases hzy : z < y
            · simp [hzy] at h2
            · have exy : x = y := Nat.le_antisymm (Nat.le_of_not_lt hyx) (Nat.le_of_not_lt hxy)
              have eyz : y = z := Nat.le_antisymm (Nat.le_of_not_lt hzy) (Nat.le_of_not_lt hyz)
              subst exy; subst eyz
              simp only [Nat.lt_irrefl, if_false] at h1 h2 ⊢
              exact ih ys zs h1 h2

/-! ## Integer and length span parsing (decoder side)

`Deserializer::parse_int` and `parse_bytes_len` both collect raw bytes up to a
delimiter and then run `String::from_utf8` followed by `str::parse`
(`i64` resp. `usize`).  Both failure modes map to `Error::InvalidValue`, so
the two steps are modelled as one function on the byte span.  A span that is
not all ASCII either fails UTF-8 validation or yields a non-ASCII character
that `FromStr` rejects; in both cases the result is `InvalidValue`, which the
single all-digits test below reproduces exactly. -/

/-- A nonempty all-digit span and its value, else `none` (the digit part of
Rust's integer `FromStr`). -/

def parseAsciiDigits (ds : List Nat) : Option Nat :=
  if ds.isEmpty then none
  else if ds.all isDigitByte then some (digitsVal ds) else none

/-- Model of `str::parse::<i64>` on a raw byte span: optional `+`/`-` sign,
one or more digits, result within the `i64` range. -/

def parseI64Span (bs : List Nat) : Option Int :=
  match bs with
  | [] => none
  | b :: rest =>
    if b = 43 then
      (parseAsciiDigits rest).bind fun n => if n < 2 ^ 63 then some (n : Int) else none
    else if b = 45 then
      (parseAsciiDigits rest).bind fun n => if n ≤ 2 ^ 63 then some (-(n : Int)) else none
    else
      (parseAsciiDigits (b :: rest)).bind fun n => if n < 2 ^ 63 then some (n : Int) else none

/-- Model of `str::parse::<usize>` on a raw byte span (64-bit target):
optional `+` sign, one or more digits, result below `2^64`. -/

def parseUsizeSpan (bs : List Nat) : Option Nat :=
  match bs with
  | [] => none
  | b :: rest =>
    if b = 43 then (parseAsciiDigits rest).bind fun n => if n < 2 ^ 64 then some n else none
    else (parseAsciiDigits (b :: rest)).bind fun n => if n < 2 ^ 64 then some n else none

/-! ## The token lexer (`Deserializer::parse` and helpers) -/

/-- `ParseResult` from `de.rs`: one structural token. -/

inductive ParseResult where
  | int (i : Int)
  | bytes (s : List Nat)
  /-- list start -/
  | list
  /-- map start -/
  | map
  /-- list or map end (`ParseResult::End`) -/
  | end'
deriving DecidableEq, Repr

/-- The byte-collecting loop of `Deserializer::parse_int`: read until `e`
(byte 101), then parse the collected span as an `i64`. -/

def parseIntLoop : List Nat → List Nat → Except Error (Int × List Nat)
  | _, [] => .error .endOfStream
  | acc, b :: rest =>
    if b = 101 then
      match parseI64Span acc with
      | some i => .ok (i, rest)
      | none => .error .invalidValue
    else parseIntLoop (acc ++ [b]) rest

/-- The byte-collecting loop of `Deserializer::parse_bytes_len`: read until
`:` (byte 58), then parse the collected span as a `usize`. -/

def parseLenLoop : List Nat → List Nat → Except Error (Nat × List Nat)
  | _, [] => .error .endOfStream
  | acc, b :: rest =>
    if b = 58 then
      match parseUsizeSpan acc with
      | some n => .ok (n, rest)
      | none => .error .invalidValue
    else parseLenLoop (acc ++ [b]) rest

/-- `Deserializer::parse_bytes`: length prefix (starting with the already
consumed digit `lenChar`), then exactly `len` raw bytes; fewer available
bytes than declared is `EndOfStream`. -/

def parseBytesTok (lenChar : Nat) (input : List Nat) : Except Error (List Nat × List Nat) :=
  match parseLenLoop [lenChar] input with
  | .error e => .error e
  | .ok (len, rest) =>
    if rest.length < len then .error .endOfStream
    else .ok (rest.take len, rest.drop len)

/-- `Deserializer::parse` with an empty pushback slot: dispatch on the next
byte to produce one token. -/

def parseToken : List Nat → Except Error (ParseResult × List Nat)
  | [] => .error .endOfStream
  | b :: rest =>
    if b = 105 then
      match parseIntLoop [] rest with
      | .error e => .error e
      | .ok (i, r) => .ok (.int i, r)
    else if isDigitByte b then
      match parseBytesTok b rest with
      | .error e => .error e
      | .ok (s, r) => .ok (.bytes s, r)
    else if b = 108 then .ok (.list, rest)
    else if b = 100 then .ok (.map, rest)
    else if b = 101 then .ok (.end', rest)
    else .error .invalidValue

/-! ## The serializer (`src/ser.rs`)

`Serializer { buf: Vec<u8> }` is a growing byte buffer; scalar methods append
tokens to it.  Methods that can fail are modelled as returning the (possibly
updated) buffer together with an `Except Error Unit` result, mirroring
`&mut self` plus `Result<()>`. -/

/-- The bytes `serialize_i64` appends: `i`, decimal digits, `e`. -/

def intBytes (i : Int) : List Nat := 105 :: encInt i ++ [101]

/-- `Serializer::serialize_i64` (always succeeds). -/

def serializeI64 (buf : List Nat) (i : Int) : List Nat := buf ++ intBytes i

/-- `Serializer::serialize_bytes` (always succeeds): length digits, `:`, raw
bytes. -/

def serializeBytes (buf : List Nat) (s : List Nat) : List Nat := buf ++ encBytes s

/-- The `value as i64` cast in `serialize_u64` (two's-complement
reinterpretation of a `u64` value `v < 2^64`). -/

def i64OfU64 (v : Nat) : Int := if v < 2 ^ 63 then (v : Int) else (v : Int) - 2 ^ 64

/-- `Serializer::serialize_u64`: `self.serialize_i64(value as i64)` — never
an error. -/

def serializeU64 (buf : List Nat) (v : Nat) : List Nat × Except Error Unit :=
  (serializeI64 buf (i64OfU64 v), .ok ())

/-- `Serializer::serialize_f32`: immediate `InvalidValue`; the buffer is left
untouched and the float argument is never inspected (so it does not appear in
the embedding). -/

def serializeF32 (buf : List Nat) : List Nat × Except Error Unit :=
  (buf, .error .invalidValue)

/-- `Serializer::serialize_f64`: immediate `InvalidValue`; the buffer is left
untouched and the float argument is never inspected. -/

def serializeF64 (buf : List Nat) : List Nat × Except Error Unit :=
  (buf, .error .invalidValue)

/-- `Serializer::serialize_none`: `Ok(())` with no bytes written. -/

def serializeNone (buf : List Nat) : List Nat × Except Error Unit :=
  (buf, .ok ())

/-- `Serializer::serialize_unit` (and `serialize_unit_struct`): `Ok(())`
with no bytes written. -/

def serializeUnit (buf : List Nat) : List Nat × Except Error Unit :=
  (buf, .ok ())

/-- `Serializer::serialize_unit_variant`: `self.serialize_str(variant)`,
i.e. the variant's tag name as a length-prefixed byte string — emitted
unconditionally, in every context. -/

def serializeUnitVariant (buf : List Nat) (variant : List Nat) : List Nat × Except Error Unit :=
  (serializeBytes buf variant, .ok ())

/-- One step of `SerializeMap::serialize_entry`: the key has been rendered by
`StringSerializer` (raw bytes, no prefix) and the value serialized into a
fresh buffer; the pair is buffered only if the value's encoding is
nonempty. -/

def serializeEntryB (entries : List (List Nat × List Nat)) (k vbytes : List Nat) :
    List (List Nat × List Nat) :=
  if vbytes.isEmpty then entries else entries ++ [(k, vbytes)]

/-- Buffer a whole sequence of pre-rendered `(key bytes, value bytes)` pairs
through `serialize_entry`, in order. -/

def runEntries (raw : List (List Nat × List Nat)) : List (List Nat × List Nat) :=
  raw.foldl (fun es kv => serializeEntryB es kv.1 kv.2) []

/-- `SerializeMap::end_map`: sort the buffered entries ascending by raw key
bytes (`sort_by(a.cmp(b))` is a stable sort, so it is modelled by the stable
`insertionSort`), then emit `d`, each key via `serialize_bytes` followed by
the value bytes verbatim, then `e`. -/

def endMap (entries : List (List Nat × List Nat)) : List Nat :=
  100 :: ((List.insertionSort keyLe entries).map fun kv => encBytes kv.1 ++ kv.2).flatten ++ [101]

/-- A whole map serialization (`serialize_map` … entries … `end`), starting
from the pre-rendered entries in supply order. -/

def mapSerialize (raw : List (List Nat × List Nat)) : List Nat :=
  endMap (runEntries raw)

/-! ## The document value model (`src/value.rs`) -/

/-- `Value`: all possible bencode values.  `Dict` is a `HashMap` in Rust;
here its entries are carried as an association list in iteration order
(`HashMap` equality is insertion-order independent, which the relation
`Value.equiv` below captures). -/

inductive Value where
  | bytes (s : List Nat)
  | int (i : Int)
  | list (xs : List Value)
  | dict (xs : List (List Nat × Value))
deriving Repr

/-- Range/shape constraints a `Value` inherits from its Rust type: byte
strings are `Vec<u8>` (bytes below 256, length below `2^64`), integers are
`i64`, dictionary keys are distinct (`HashMap`). -/

def byteStrWf (s : List Nat) : Bool :=
  decide (s.length < 2 ^ 64) && s.all fun b => decide (b < 256)

mutual
def Value.wf : Value → Bool
  | .bytes s => byteStrWf s
  | .int i => decide (-(2 ^ 63) ≤ i) && decide (i < 2 ^ 63)
  | .list xs => Value.wfList xs
  | .dict xs => decide ((xs.map Prod.fst).Nodup) && Value.wfEntries xs
def Value.wfList : List Value → Bool
  | [] => true
  | v :: vs => v.wf && Value.wfList vs
def Value.wfEntries : List (List Nat × Value) → Bool
  | [] => true
  | (k, v) :: rest => byteStrWf k && v.wf && Value.wfEntries rest
end

/-! `Value::serialize` (`value.rs` lines 25-50): bytes via `serialize_bytes`,
ints via `serialize_i64`, lists as a sequence (`l` … `e`), dicts through the
`SerializeMap` machinery — every key is passed as `Bytes::new(k)`, which
`StringSerializer` renders as the raw key bytes.  No branch can fail, so the
encoder for `Value` is a total function on byte lists. -/

mutual
def encodeValue : Value → List Nat
  | .bytes s => encBytes s
  | .int i => intBytes i
  | .list xs => 108 :: encodeList xs ++ [101]
  | .dict xs => mapSerialize (encodeEntries xs)
def encodeList : List Value → List Nat
  | [] => []
  | v :: vs => encodeValue v ++ encodeList vs
def encodeEntries : List (List Nat × Value) → List (List Nat × List Nat)
  | [] => []
  | (k, v) :: rest => (k, encodeValue v) :: encodeEntries rest
end

/-- `to_bytes(&Value)`: serialize into a fresh buffer.  (`Value::serialize`
never returns an error, so the `Result` is always `Ok`.) -/

def toBytesValue (v : Value) : List Nat := encodeValue v

mutual
/-- Recursively put every dictionary's entries into sorted key order.  This
is the canonical shape in which an encoded-then-decoded `Value` comes back. -/
def sortValue : Value → Value
  | .bytes s => .bytes s
  | .int i => .int i
  | .list xs => .list (sortList xs)
  | .dict xs => .dict (List.insertionSort keyLe (sortEntries xs))
def sortList : List Value → List Value
  | [] => []
  | v :: vs => sortValue v :: sortList vs
def sortEntries : List (List Nat × Value) → List (List Nat × Value)
  | [] => []
  | (k, v) :: rest => (k, sortValue v) :: sortEntries rest
end

mutual
/-- The embedding of `==` on `Value` (`PartialEq`): structural equality
except at `Dict`, where `HashMap` equality ignores entry order — the
entries of one side, with values matched up to `equiv`, are a permutation of
the other side's. -/
def Value.equiv : Value → Value → Prop
  | .bytes a, .bytes b => a = b
  | .int a, .int b => a = b
  | .list xs, .list ys => Value.equivList xs ys
  | .dict xs, .dict ys => ∃ zs, Value.equivEntries xs zs ∧ zs.Perm ys
  | _, _ => False
def Value.equivList : List Value → List Value → Prop
  | [], [] => True
  | x :: xs, y :: ys => Value.equiv x y ∧ Value.equivList xs ys
  | _, _ => False
def Value.equivEntries : List (List Nat × Value) → List (List Nat × Value) → Prop
  | [], [] => True
  | (k, v) :: xs, (k2, v2) :: ys => k = k2 ∧ Value.equiv v v2 ∧ Value.equivEntries xs ys
  | _, _ => False
end

/-! ## Decoding a `Value` (`deserialize_any` with `ValueVisitor`)

The recursion is made structural by a fuel parameter that every call
decrements; `parseFuel_stable` below shows any fuel above `2·length + 3`
gives the same (fuel-free) result, so `decodeValueRaw`'s choice of fuel is
immaterial.  The functions follow `de.rs`/`value.rs` exactly:

* `parseValueWithTokenF t input` is the `match` body of `deserialize_any`
  once the token `t` has been read (used directly on a pushed-back token);
* `parseListF` is `ValueVisitor::visit_seq` driving
  `SeqAccess::next_element_seed` (with `len = None`, so no arity checks);
* `parseDictF` is `ValueVisitor::visit_map` driving
  `MapAccess::next_key_seed` / `next_value_seed`, collecting entries in
  read order (Rust inserts them into a `HashMap`);
* dict keys deserialize through `serde_bytes::ByteBuf`, whose visitor
  accepts a byte string, or a bencode list of integers each in `0..=255`
  (`visit_seq` over `u8` elements), and rejects an integer or map token
  with `InvalidType` (`parseKeyWithTokenF`, `parseU8ListF`); an out-of-range
  integer element is `InvalidValue` (serde's `u8` visitor), a non-integer
  element is `InvalidType`. -/

mutual
def parseValueF : Nat → List Nat → Except Error (Value × List Nat)
  | 0, _ => .error .endOfStream
  | fuel + 1, input =>
    match parseToken input with
    | .error e => .error e
    | .ok (t, rest) => parseValueWithTokenF fuel t rest
def parseValueWithTokenF : Nat → ParseResult → List Nat → Except Error (Value × List Nat)
  | 0, _, _ => .error .endOfStream
  | fuel + 1, t, input =>
    match t with
    | .int i => .ok (.int i, input)
    | .bytes s => .ok (.bytes s, input)
    | .list =>
      match parseListF fuel input with
      | .error e => .error e
      | .ok (vs, rest) => .ok (.list vs, rest)
    | .map =>
      match parseDictF fuel input with
      | .error e => .error e
      | .ok (es, rest) => .ok (.dict es, rest)
    | .end' => .error .endOfStream
def parseListF : Nat → List Nat → Except Error (List Value × List Nat)
  | 0, _ => .error .endOfStream
  | fuel + 1, input =>
    match parseToken input with
    | .error e => .error e
    | .ok (.end', rest) => .ok ([], rest)
    | .ok (t, rest) =>
      match parseValueWithTokenF fuel t rest with
      | .error e => .error e
      | .ok (v, rest1) =>
        match parseListF fuel rest1 with
        | .error e => .error e
        | .ok (vs, rest2) => .ok (v :: vs, rest2)
def parseDictF : Nat → List Nat → Except Error (List (List Nat × Value) × List Nat)
  | 0, _ => .error .endOfStream
  | fuel + 1, input =>
    match parseToken input with
    | .error e => .error e
    | .ok (.end', rest) => .ok ([], rest)
    | .ok (t, rest) =>
      match parseKeyWithTokenF fuel t rest with
      | .error e => .error e
      | .ok (k, rest1) =>
        match parseValueF fuel rest1 with
        | .error e => .error e
        | .ok (v, rest2) =>
          match parseDictF fuel rest2 with
          | .error e => .error e
          | .ok (es, rest3) => .ok ((k, v) :: es, rest3)
def parseKeyWithTokenF : Nat → ParseResult → List Nat → Except Error (List Nat × List Nat)
  | 0, _, _ => .error .endOfStream
  | fuel + 1, t, input =>
    match t with
    | .bytes s => .ok (s, input)
    | .int _ => .error .invalidType
    | .list =>
      match parseU8ListF fuel input with
      | .error e => .error e
      | .ok (bs, rest) => .ok (bs, rest)
    | .map => .error .invalidType
    | .end' => .error .endOfStream
def parseU8ListF : Nat → List Nat → Except Error (List Nat × List Nat)
  | 0, _ => .error .endOfStream
  | fuel + 1, input =>
    match parseToken input with
    | .error e => .error e
    | .ok (.end', rest) => .ok ([], rest)
    | .ok (.int i, rest) =>
      if 0 ≤ i ∧ i ≤ 255 then
        match parseU8ListF fuel rest with
        | .error e => .error e
        | .ok (bs, rest1) => .ok (i.toNat :: bs, rest1)
      else .error .invalidValue
    | .ok (.bytes _, _) => .error .invalidType
    | .ok (.list, _) => .error .invalidType
    | .ok (.map, _) => .error .invalidType
end

/-- Fuel that `parseFuel_stable` proves always sufficient for `input`. -/

def enoughFuel (input : List Nat) : Nat := 2 * input.length + 3

/-- Parse one `Value` from the front of `input`, returning it with the
unconsumed suffix. -/

def decodeValueRaw (input : List Nat) : Except Error (Value × List Nat) :=
  parseValueF (enoughFuel input) input

/-- `from_bytes::<Value>`: deserialize one `Value`; trailing bytes are left
unread (as in `de.rs`, which never checks for leftover input). -/

def fromBytesValue (input : List Nat) : Except Error Value :=
  (decodeValueRaw input).map Prod.fst

/-! ## String-targeted deserialization (`deserialize_str` / `deserialize_string`) -/

/-- Is the byte a UTF-8 continuation byte (`0x80..=0xBF`)? -/

def isContByte (b : Nat) : Bool := 128 ≤ b && b ≤ 191

/-- UTF-8 validity of a byte sequence (RFC 3629 as enforced by
`str::from_utf8` / `String::from_utf8`): no overlong forms, no surrogates,
nothing above `U+10FFFF`. -/

def utf8Valid : List Nat → Bool
  | [] => true
  | b :: rest =>
    if b ≤ 127 then utf8Valid rest
    else if 194 ≤ b && b ≤ 223 then
      match rest with
      | c1 :: rest1 => isContByte c1 && utf8Valid rest1
      | [] => false
    else if b = 224 then
      match rest with
      | c1 :: c2 :: rest1 => (160 ≤ c1 && c1 ≤ 191) && isContByte c2 && utf8Valid rest1
      | _ => false
    else if 225 ≤ b && b ≤ 236 then
      match rest with
      | c1 :: c2 :: rest1 => isContByte c1 && isContByte c2 && utf8Valid rest1
      | _ => false
    else if b = 237 then
      match rest with
      | c1 :: c2 :: rest1 => (128 ≤ c1 && c1 ≤ 159) && isContByte c2 && utf8Valid rest1
      | _ => false
    else if 238 ≤ b && b ≤ 239 then
      match rest with
      | c1 :: c2 :: rest1 => isContByte c1 && isContByte c2 && utf8Valid rest1
      | _ => false
    else if b = 240 then
      match rest with
      | c1 :: c2 :: c3 :: rest1 =>
        (144 ≤ c1 && c1 ≤ 191) && isContByte c2 && isContByte c3 && utf8Valid rest1
      | _ => false
    else if 241 ≤ b && b ≤ 243 then
      match rest with
      | c1 :: c2 :: c3 :: rest1 =>
        isContByte c1 && isContByte c2 && isContByte c3 && utf8Valid rest1
      | _ => false
    else if b = 244 then
      match rest with
      | c1 :: c2 :: c3 :: rest1 =>
        (128 ≤ c1 && c1 ≤ 143) && isContByte c2 && isContByte c3 && utf8Valid rest1
      | _ => false
    else false

/-- `Deserializer::parse_only_bytes`: the next token must be a byte string;
an integer, list or map token is `InvalidType`, `End` is `EndOfStream`. -/

def parseOnlyBytes (input : List Nat) : Except Error (List Nat × List Nat) :=
  match parseToken input with
  | .error e => .error e
  | .ok (.bytes s, rest) => .ok (s, rest)
  | .ok (.int _, _) => .error .invalidType
  | .ok (.list, _) => .error .invalidType
  | .ok (.map, _) => .error .invalidType
  | .ok (.end', _) => .error .endOfStream

/-- `deserialize_str` / `deserialize_string` targeting a string: the bytes
from `parse_only_bytes`, which must additionally be valid UTF-8
(`InvalidValue` otherwise). -/

def deserializeStringTok (input : List Nat) : Except Error (List Nat × List Nat) :=
  match parseOnlyBytes input with
  | .error e => .error e
  | .ok (s, rest) => if utf8Valid s then .ok (s, rest) else .error .invalidValue

/-- Deserializing into an `i64` (`deserialize_i64`, forwarded to
`deserialize_any` with serde's primitive `i64` visitor): only an integer
token is accepted; a byte-string, list or map token hits the visitor's
default methods, which fail with `InvalidType`. -/

def deserializeI64Tok (input : List Nat) : Except Error (Int × List Nat) :=
  match parseToken input with
  | .error e => .error e
  | .ok (.int i, rest) => .ok (i, rest)
  | .ok (.bytes _, _) => .error .invalidType
  | .ok (.list, _) => .error .invalidType
  | .ok (.map, _) => .error .invalidType
  | .ok (.end', _) => .error .endOfStream

/-! ## Structural induction over `Value` (recursion through the nested lists) -/

def Value.myInduction (P : Value → Prop)
    (hb : ∀ s, P (.bytes s)) (hi : ∀ i, P (.int i))
    (hl : ∀ xs, (∀ x ∈ xs, P x) → P (.list xs))
    (hd : ∀ xs, (∀ kv ∈ xs, P kv.2) → P (.dict xs)) :
    ∀ v, P v
  | .bytes s => hb s
  | .int i => hi i
  | .list xs => hl xs (fun x hx =>
      have : sizeOf x < 1 + sizeOf xs := by
        have := List.sizeOf_lt_of_mem hx
        omega
      Value.myInduction P hb hi hl hd x)
  | .dict xs => hd xs (fun kv hkv =>
      have : sizeOf kv.2 < 1 + sizeOf xs := by
        have h1 := List.sizeOf_lt_of_mem hkv
        obtain ⟨k, v⟩ := kv
        simp only [Prod.mk.sizeOf_spec] at h1
        simp only []
        omega
      Value.myInduction P hb hi hl hd kv.2)
termination_by v => sizeOf v

/-! ## The specification's integer-token grammar (for claim C8)

`specIntSpan` is written from the claim's words — "ASCII digits with an
optional leading `-`" — not from the source; it is compared against the
implementation's acceptance below. -/

def specIntSpan (bs : List Nat) : Bool :=
  match bs with
  | 45 :: rest => !rest.isEmpty && rest.all isDigitByte
  | _ => !bs.isEmpty && bs.all isDigitByte

theorem lexLe_antisymm {a b : List Nat} (h1 : lexLe a b = true) (h2 : lexLe b a = true) :
    a = b := by
  induction a generalizing b with
  | nil => cases b with
    | nil => rfl
    | cons y ys => simp [lexLe] at h2
  | cons x xs ih =>
    cases b with
    | nil => simp [lexLe] at h1
    | cons y ys =>
      simp only [lexLe] at h1 h2
      have hxy : ¬ x < y := by
        intro h
        simp [Nat.not_lt.mpr (Nat.le_of_lt h), h] at h2
      have hyx : ¬ y < x := by
        intro h
        simp [Nat.not_lt.mpr (Nat.le_of_lt h), h] at h1
      have exy : x = y := Nat.le_antisymm (Nat.le_of_not_lt hyx) (Nat.le_of_not_lt hxy)
      subst exy
      simp only [Nat.lt_irrefl, if_false] at h1 h2
      rw [ih h1 h2]

/-! ## Properties of the decimal printer -/

theorem encNatF_fuel {f g n : Nat} (hf : n < f) (hg : n < g) :
    encNatF f n = encNatF g n := by
  induction f generalizing g n with
  | zero => omega
  | succ f ih =>
    cases g with
    | zero => omega
    | succ g =>
      simp only [encNatF]
      by_cases h : n < 10
      · simp [h]
      · have hd : n / 10 < n := Nat.div_lt_self (by omega) (by omega)
        simp only [h, if_false]
        rw [ih (g := g) (n := n / 10) (by omega) (by omega)]

theorem encNat_eq_encNatF {f n : Nat} (hf : n < f) : encNat n = encNatF f n :=
  encNatF_fuel (Nat.lt_succ_self n) hf

theorem encNatF_digits {f n : Nat} (hf : n < f) :
    ∀ b ∈ encNatF f n, 48 ≤ b ∧ b ≤ 57 := by
  induction f generalizing n with
  | zero => omega
  | succ f ih =>
    intro b hb
    simp only [encNatF] at hb
    by_cases h : n < 10
    · simp [h] at hb; omega
    · simp only [h, if_false, List.mem_append, List.mem_singleton] at hb
      rcases hb with hb | hb
      · have hd : n / 10 < n := Nat.div_lt_self (by omega) (by omega)
        exact ih (by omega) b hb
      · have := Nat.mod_lt n (y := 10) (by omega); omega

theorem encNat_digits {n : Nat} : ∀ b ∈ encNat n, 48 ≤ b ∧ b ≤ 57 :=
  encNatF_digits (Nat.lt_succ_self n)

theorem encNatF_ne_nil {f n : Nat} (hf : n < f) : encNatF f n ≠ [] := by
  cases f with
  | zero => omega
  | succ f =>
    simp only [encNatF]
    by_cases h : n < 10 <;> simp [h]

theorem encNat_ne_nil (n : Nat) : encNat n ≠ [] := encNatF_ne_nil (Nat.lt_succ_self n)

theorem digitsVal_append_single (xs : List Nat) (y : Nat) :
    digitsVal (xs ++ [y]) = digitsVal xs * 10 + (y - 48) := by
  simp [digitsVal, List.foldl_append]

theorem encNatF_val {f n : Nat} (hf : n < f) : digitsVal (encNatF f n) = n := by
  induction f generalizing n with
  | zero => omega
  | succ f ih =>
    simp only [encNatF]
    by_cases h : n < 10
    · simp [h, digitsVal]
    · have hd : n / 10 < n := Nat.div_lt_self (by omega) (by omega)
      simp only [h, if_false]
      rw [digitsVal_append_single, ih (by omega)]
      omega

theorem encNat_val (n : Nat) : digitsVal (encNat n) = n := encNatF_val (Nat.lt_succ_self n)

/-! ## Token-level lemmas -/

theorem parseAsciiDigits_encNat (n : Nat) : parseAsciiDigits (encNat n) = some n := by
  have h1 : (encNat n).isEmpty = false := by
    cases h : encNat n with
    | nil => exact absurd h (encNat_ne_nil n)
    | cons b bs => rfl
  have h2 : (encNat n).all isDigitByte = true := by
    rw [List.all_eq_true]
    intro b hb
    have := encNat_digits b hb
    simp only [isDigitByte, Bool.and_eq_true, decide_eq_true_eq]
    omega
  simp [parseAsciiDigits, h1, h2, encNat_val]

theorem encNat_head (n : Nat) :
    ∃ b bs, encNat n = b :: bs ∧ 48 ≤ b ∧ b ≤ 57 ∧ ∀ c ∈ bs, 48 ≤ c ∧ c ≤ 57 := by
  cases h : encNat n with
  | nil => exact absurd h (encNat_ne_nil n)
  | cons b bs =>
    refine ⟨b, bs, rfl, ?_, ?_, ?_⟩
    · exact (encNat_digits b (h ▸ List.mem_cons_self b bs)).1
    · exact (encNat_digits b (h ▸ List.mem_cons_self b bs)).2
    · intro c hc
      exact encNat_digits c (h ▸ List.mem_cons_of_mem b hc)

theorem parseUsizeSpan_encNat {n : Nat} (h : n < 2 ^ 64) :
    parseUsizeSpan (encNat n) = some n := by
  obtain ⟨b, bs, he, hb1, hb2, _⟩ := encNat_head n
  rw [he]
  have hne : ¬ b = 43 := by omega
  simp only [parseUsizeSpan, hne, if_false]
  rw [← he, parseAsciiDigits_encNat]
  simp only [Option.some_bind]
  rw [if_pos h]

theorem encInt_mem {i : Int} : ∀ b ∈ encInt i, b = 45 ∨ (48 ≤ b ∧ b ≤ 57) := by
  intro b hb
  unfold encInt at hb
  by_cases h : i < 0
  · simp only [h, if_true, List.mem_cons] at hb
    rcases hb with hb | hb
    · exact Or.inl hb
    · exact Or.inr (encNat_digits b hb)
  · simp only [h, if_false] at hb
    exact Or.inr (encNat_digits b hb)

theorem parseI64Span_encInt {i : Int} (h1 : -(2 ^ 63) ≤ i) (h2 : i < 2 ^ 63) :
    parseI64Span (encInt i) = some i := by
  by_cases h : i < 0
  · have he : encInt i = 45 :: encNat i.natAbs := by simp [encInt, h]
    rw [he]
    simp only [parseI64Span]
    rw [if_pos trivial, parseAsciiDigits_encNat]
    simp only [Option.some_bind]
    have hr : i.natAbs ≤ 2 ^ 63 := by omega
    rw [if_pos hr]
    exact congrArg some (by omega)
  · have he : encInt i = encNat i.toNat := by simp [encInt, h]
    obtain ⟨b, bs, hbb, hb1, hb2, _⟩ := encNat_head i.toNat
    rw [he, hbb]
    simp only [parseI64Span]
    have hne43 : ¬ b = 43 := by omega
    have hne45 : ¬ b = 45 := by omega
    rw [if_neg hne43, if_neg hne45, ← hbb, parseAsciiDigits_encNat]
    simp only [Option.some_bind]
    have hr : i.toNat < 2 ^ 63 := by omega
    rw [if_pos hr]
    simp only [Option.some.injEq]
    omega

theorem parseIntLoop_append {bs : List Nat} (hbs : 101 ∉ bs) (acc extra : List Nat) :
    parseIntLoop acc (bs ++ 101 :: extra) =
      match parseI64Span (acc ++ bs) with
      | some i => .ok (i, extra)
      | none => .error .invalidValue := by
  induction bs generalizing acc with
  | nil => simp [parseIntLoop]
  | cons c bs ih =>
    have hc : ¬ c = 101 := fun h => hbs (h ▸ List.mem_cons_self c bs)
    have hbs1 : 101 ∉ bs := fun h => hbs (List.mem_cons_of_mem c h)
    simp only [List.cons_append, parseIntLoop, hc, if_false]
    rw [show acc ++ c :: bs = (acc ++ [c]) ++ bs by simp]
    exact ih hbs1 (acc ++ [c])

theorem parseLenLoop_append {bs : List Nat} (hbs : 58 ∉ bs) (acc extra : List Nat) :
    parseLenLoop acc (bs ++ 58 :: extra) =
      match parseUsizeSpan (acc ++ bs) with
      | some n => .ok (n, extra)
      | none => .error .invalidValue := by
  induction bs generalizing acc with
  | nil => simp [parseLenLoop]
  | cons c bs ih =>
    have hc : ¬ c = 58 := fun h => hbs (h ▸ List.mem_cons_self c bs)
    have hbs1 : 58 ∉ bs := fun h => hbs (List.mem_cons_of_mem c h)
    simp only [List.cons_append, parseLenLoop, hc, if_false]
    rw [show acc ++ c :: bs = (acc ++ [c]) ++ bs by simp]
    exact ih hbs1 (acc ++ [c])

/-- Reading back an integer the serializer wrote: `parseToken` undoes
`serialize_i64` for any in-range `i64`. -/

theorem parseToken_intBytes {i : Int} (h1 : -(2 ^ 63) ≤ i) (h2 : i < 2 ^ 63)
    (extra : List Nat) : parseToken (intBytes i ++ extra) = .ok (.int i, extra) := by
  have hnotin : 101 ∉ encInt i := by
    intro hmem
    rcases encInt_mem 101 hmem with h | h <;> omega
  have : intBytes i ++ extra = 105 :: (encInt i ++ 101 :: extra) := by
    simp [intBytes]
  rw [this]
  simp only [parseToken, if_true]
  rw [parseIntLoop_append hnotin [] extra]
  simp [parseI64Span_encInt h1 h2]

/-- Reading back a byte string the serializer wrote: `parseToken` undoes
`serialize_bytes` whenever the length fits in `usize`. -/

theorem parseToken_encBytes {s : List Nat} (h : s.length < 2 ^ 64) (extra : List Nat) :
    parseToken (encBytes s ++ extra) = .ok (.bytes s, extra) := by
  obtain ⟨b, bs, he, hb1, hb2, hbs⟩ := encNat_head s.length
  have hsplit : encBytes s ++ extra = b :: (bs ++ 58 :: (s ++ extra)) := by
    simp [encBytes, he]
  rw [hsplit]
  have hb105 : ¬ b = 105 := by omega
  have hdig : isDigitByte b = true := by
    simp only [isDigitByte, Bool.and_eq_true, decide_eq_true_eq]; omega
  simp only [parseToken, hb105, if_false, hdig, if_true]
  have hnotin : 58 ∉ bs := by
    intro hmem
    have := hbs 58 hmem; omega
  have hloop : parseLenLoop [b] (bs ++ 58 :: (s ++ extra)) =
      match parseUsizeSpan ([b] ++ bs) with
      | some n => .ok (n, s ++ extra)
      | none => .error .invalidValue := parseLenLoop_append hnotin [b] (s ++ extra)
  have hbbs : [b] ++ bs = encNat s.length := by simp [he]
  rw [hbbs, parseUsizeSpan_encNat h] at hloop
  simp only [parseBytesTok, hloop]
  have hlen : ¬ (s ++ extra).length < s.length := by
    simp [List.length_append]
  simp only [hlen, if_false]
  rw [List.take_left, List.drop_left]

/-! ### Consumption: every successful token read shortens the input -/

theorem parseIntLoop_consume {input acc : List Nat} {i : Int} {rest : List Nat}
    (h : parseIntLoop acc input = .ok (i, rest)) : rest.length < input.length := by
  induction input generalizing acc with
  | nil => simp [parseIntLoop] at h
  | cons b input ih =>
    simp only [parseIntLoop] at h
    by_cases hb : b = 101
    · simp only [hb, if_true] at h
      cases hp : parseI64Span acc with
      | none => rw [hp] at h; simp at h
      | some j =>
        rw [hp] at h
        simp only [Except.ok.injEq, Prod.mk.injEq] at h
        simp [← h.2]
    · simp only [hb, if_false] at h
      have := ih h
      simp only [List.length_cons]
      omega

theorem parseLenLoop_consume {input acc : List Nat} {n : Nat} {rest : List Nat}
    (h : parseLenLoop acc input = .ok (n, rest)) : rest.length < input.length := by
  induction input generalizing acc with
  | nil => simp [parseLenLoop] at h
  | cons b input ih =>
    simp only [parseLenLoop] at h
    by_cases hb : b = 58
    · simp only [hb, if_true] at h
      cases hp : parseUsizeSpan acc with
      | none => rw [hp] at h; simp at h
      | some m =>
        rw [hp] at h
        simp only [Except.ok.injEq, Prod.mk.injEq] at h
        simp [← h.2]
    · simp only [hb, if_false] at h
      have := ih h
      simp only [List.length_cons]
      omega

theorem parseBytesTok_consume {c : Nat} {input s rest : List Nat}
    (h : parseBytesTok c input = .ok (s, rest)) : rest.length < input.length := by
  unfold parseBytesTok at h
  cases hl : parseLenLoop [c] input with
  | error e => rw [hl] at h; simp at h
  | ok lr =>
    obtain ⟨len, rest1⟩ := lr
    rw [hl] at h
    have h1 := parseLenLoop_consume hl
    by_cases hlt : rest1.length < len
    · simp [hlt] at h
    · simp only [hlt, if_false, Except.ok.injEq, Prod.mk.injEq] at h
      have : rest = rest1.drop len := h.2.symm
      subst this
      have := List.length_drop len rest1
      omega

theorem parseToken_consume {input : List Nat} {t : ParseResult} {rest : List Nat}
    (h : parseToken input = .ok (t, rest)) : rest.length < input.length := by
  cases input with
  | nil => simp [parseToken] at h
  | cons b input =>
    simp only [parseToken] at h
    by_cases h105 : b = 105
    · simp only [h105, if_true] at h
      cases hl : parseIntLoop [] input with
      | error e => rw [hl] at h; simp at h
      | ok ir =>
        obtain ⟨i, r⟩ := ir
        rw [hl] at h
        simp only [Except.ok.injEq, Prod.mk.injEq] at h
        have := parseIntLoop_consume hl
        simp only [← h.2, List.length_cons]
        omega
    · simp only [h105, if_false] at h
      by_cases hdig : isDigitByte b
      · simp only [hdig, if_true] at h
        cases hl : parseBytesTok b input with
        | error e => rw [hl] at h; simp at h
        | ok sr =>
          obtain ⟨s, r⟩ := sr
          rw [hl] at h
          simp only [Except.ok.injEq, Prod.mk.injEq] at h
          have := parseBytesTok_consume hl
          simp only [← h.2, List.length_cons]
          omega
      · simp only [hdig, Bool.false_eq_true, if_false] at h
        by_cases h108 : b = 108
        · simp only [h108, if_true] at h
          simp only [Except.ok.injEq, Prod.mk.injEq] at h
          simp [← h.2]
        · simp only [h108, if_false] at h
          by_cases h100 : b = 100
          · simp only [h100, if_true] at h
            simp only [Except.ok.injEq, Prod.mk.injEq] at h
            simp [← h.2]
          · simp only [h100, if_false] at h
            by_cases h101 : b = 101
            · simp only [h101, if_true] at h
              simp only [Except.ok.injEq, Prod.mk.injEq] at h
              simp [← h.2]
            · simp [h101] at h

/-! ### Truncation: a token read from a truncated input either yields the
same token (when it lies wholly inside the kept part) or `EndOfStream` -/

theorem parseIntLoop_trunc {p q acc : List Nat} {i : Int} {r : List Nat}
    (h : parseIntLoop acc (p ++ q) = .ok (i, r)) :
    (∃ p1, parseIntLoop acc p = .ok (i, p1) ∧ p1 ++ q = r) ∨
      parseIntLoop acc p = .error .endOfStream := by
  induction p generalizing acc with
  | nil => exact Or.inr rfl
  | cons b p ih =>
    simp only [List.cons_append, parseIntLoop] at h ⊢
    by_cases hb : b = 101
    · simp only [hb, if_true] at h ⊢
      cases hp : parseI64Span acc with
      | none => rw [hp] at h; cases h
      | some j =>
        rw [hp] at h
        simp only [Except.ok.injEq, Prod.mk.injEq] at h
        exact Or.inl ⟨p, by rw [h.1], h.2⟩
    · simp only [hb, if_false] at h ⊢
      exact ih h

theorem parseLenLoop_trunc {p q acc : List Nat} {n : Nat} {r : List Nat}
    (h : parseLenLoop acc (p ++ q) = .ok (n, r)) :
    (∃ p1, parseLenLoop acc p = .ok (n, p1) ∧ p1 ++ q = r) ∨
      parseLenLoop acc p = .error .endOfStream := by
  induction p generalizing acc with
  | nil => exact Or.inr rfl
  | cons b p ih =>
    simp only [List.cons_append, parseLenLoop] at h ⊢
    by_cases hb : b = 58
    · simp only [hb, if_true] at h ⊢
      cases hp : parseUsizeSpan acc with
      | none => rw [hp] at h; cases h
      | some m =>
        rw [hp] at h
        simp only [Except.ok.injEq, Prod.mk.injEq] at h
        exact Or.inl ⟨p, by rw [h.1], h.2⟩
    · simp only [hb, if_false] at h ⊢
      exact ih h

theorem parseBytesTok_trunc {c : Nat} {p q s r : List Nat}
    (h : parseBytesTok c (p ++ q) = .ok (s, r)) :
    (∃ p1, parseBytesTok c p = .ok (s, p1) ∧ p1 ++ q = r) ∨
      parseBytesTok c p = .error .endOfStream := by
  unfold parseBytesTok at h ⊢
  cases hfull : parseLenLoop [c] (p ++ q) with
  | error e => rw [hfull] at h; cases h
  | ok lr =>
    obtain ⟨len, rest1⟩ := lr
    rw [hfull] at h
    rcases parseLenLoop_trunc hfull with ⟨p1, hp1, hp1q⟩ | heos
    · rw [hp1]
      by_cases hlt : rest1.length < len
      · simp [hlt] at h
      · simp only [hlt, if_false, Except.ok.injEq, Prod.mk.injEq] at h
        by_cases hplt : p1.length < len
        · exact Or.inr (by simp [hplt])
        · left
          have hle : len ≤ p1.length := by omega
          refine ⟨p1.drop len, ?_, ?_⟩
          · simp only [hplt, if_false, Except.ok.injEq, Prod.mk.injEq]
            constructor
            · rw [← h.1, ← hp1q, List.take_append_of_le_length hle]
            · trivial
          · rw [← h.2, ← hp1q, List.drop_append_of_le_length hle]
    · exact Or.inr (by rw [heos])

theorem parseToken_trunc {p q : List Nat} {t : ParseResult} {r : List Nat}
    (h : parseToken (p ++ q) = .ok (t, r)) :
    (∃ p1, parseToken p = .ok (t, p1) ∧ p1 ++ q = r) ∨
      parseToken p = .error .endOfStream := by
  cases p with
  | nil => exact Or.inr rfl
  | cons b p =>
    simp only [List.cons_append, parseToken] at h ⊢
    by_cases h105 : b = 105
    · simp only [h105, if_true] at h ⊢
      cases hfull : parseIntLoop [] (p ++ q) with
      | error e => rw [hfull] at h; cases h
      | ok ir =>
        obtain ⟨i, r1⟩ := ir
        rw [hfull] at h
        simp only [Except.ok.injEq, Prod.mk.injEq] at h
        rcases parseIntLoop_trunc hfull with ⟨p1, hp1, hp1q⟩ | heos
        · rw [hp1]
          exact Or.inl ⟨p1, by rw [← h.1], by rw [hp1q, h.2]⟩
        · exact Or.inr (by rw [heos])
    · simp only [h105, if_false] at h ⊢
      by_cases hdig : isDigitByte b
      · simp only [hdig, if_true] at h ⊢
        cases hfull : parseBytesTok b (p ++ q) with
        | error e => rw [hfull] at h; cases h
        | ok sr =>
          obtain ⟨s, r1⟩ := sr
          rw [hfull] at h
          simp only [Except.ok.injEq, Prod.mk.injEq] at h
          rcases parseBytesTok_trunc hfull with ⟨p1, hp1, hp1q⟩ | heos
          · rw [hp1]
            exact Or.inl ⟨p1, by rw [← h.1], by rw [hp1q, h.2]⟩
          · exact Or.inr (by rw [heos])
      · simp only [hdig, Bool.false_eq_true, if_false] at h ⊢
        by_cases h108 : b = 108
        · simp only [h108, if_true] at h ⊢
          simp only [Except.ok.injEq, Prod.mk.injEq] at h
          exact Or.inl ⟨p, by rw [← h.1], h.2⟩
        · simp only [h108, if_false] at h ⊢
          by_cases h100 : b = 100
          · simp only [h100, if_true] at h ⊢
            simp only [Except.ok.injEq, Prod.mk.injEq] at h
            exact Or.inl ⟨p, by rw [← h.1], h.2⟩
          · simp only [h100, if_false] at h ⊢
            by_cases h101 : b = 101
            · simp only [h101, if_true] at h ⊢
              simp only [Except.ok.injEq, Prod.mk.injEq] at h
              exact Or.inl ⟨p, by rw [← h.1], h.2⟩
            · simp only [h101, if_false] at h
              cases h

/-! ### Consumption for the value parsers: success always shortens input -/

theorem parseConsumeAll (fuel : Nat) :
    (∀ input v rest, parseValueF fuel input = .ok (v, rest) →
      rest.length < input.length) ∧
    (∀ t input v rest, parseValueWithTokenF fuel t input = .ok (v, rest) →
      rest.length ≤ input.length) ∧
    (∀ input vs rest, parseListF fuel input = .ok (vs, rest) →
      rest.length < input.length) ∧
    (∀ input es rest, parseDictF fuel input = .ok (es, rest) →
      rest.length < input.length) ∧
    (∀ t input k rest, parseKeyWithTokenF fuel t input = .ok (k, rest) →
      rest.length ≤ input.length) ∧
    (∀ input bs rest, parseU8ListF fuel input = .ok (bs, rest) →
      rest.length < input.length) := by
  induction fuel with
  | zero =>
    refine ⟨?_, ?_, ?_, ?_, ?_, ?_⟩
    · intro input v rest h; cases h
    · intro t input v rest h; cases h
    · intro input vs rest h; cases h
    · intro input es rest h; cases h
    · intro t input k rest h; cases h
    · intro input bs rest h; cases h
  | succ fuel ih =>
    obtain ⟨ihV, ihW, ihL, ihD, ihK, ihU⟩ := ih
    refine ⟨?_, ?_, ?_, ?_, ?_, ?_⟩
    · -- parseValueF
      intro input v rest h
      simp only [parseValueF] at h
      cases ht : parseToken input with
      | error e => rw [ht] at h; cases h
      | ok tr =>
        obtain ⟨t, r⟩ := tr
        rw [ht] at h
        have h1 := ihW t r v rest h
        have h2 := parseToken_consume ht
        omega
    · -- parseValueWithTokenF
      intro t input v rest h
      cases t with
      | int i =>
        simp only [parseValueWithTokenF, Except.ok.injEq, Prod.mk.injEq] at h
        rw [← h.2]
      | bytes s =>
        simp only [parseValueWithTokenF, Except.ok.injEq, Prod.mk.injEq] at h
        rw [← h.2]
      | list =>
        simp only [parseValueWithTokenF] at h
        cases hl : parseListF fuel input with
        | error e => rw [hl] at h; cases h
        | ok vr =>
          obtain ⟨vs, r⟩ := vr
          rw [hl] at h
          simp only [Except.ok.injEq, Prod.mk.injEq] at h
          obtain ⟨h1, h2⟩ := h
          subst h2
          exact Nat.le_of_lt (ihL input vs r hl)
      | map =>
        simp only [parseValueWithTokenF] at h
        cases hl : parseDictF fuel input with
        | error e => rw [hl] at h; cases h
        | ok er =>
          obtain ⟨es, r⟩ := er
          rw [hl] at h
          simp only [Except.ok.injEq, Prod.mk.injEq] at h
          obtain ⟨h1, h2⟩ := h
          subst h2
          exact Nat.le_of_lt (ihD input es r hl)
      | end' => cases h
    · -- parseListF
      intro input vs rest h
      simp only [parseListF] at h
      cases ht : parseToken input with
      | error e => rw [ht] at h; cases h
      | ok tr =>
        obtain ⟨t, r⟩ := tr
        rw [ht] at h
        have htc := parseToken_consume ht
        cases t with
        | end' =>
          simp only [Except.ok.injEq, Prod.mk.injEq] at h
          rw [← h.2]; exact htc
        | int i =>
          simp only [] at h
          cases hw : parseValueWithTokenF fuel (.int i) r with
          | error e => rw [hw] at h; cases h
          | ok vr =>
            obtain ⟨v1, r1⟩ := vr
            rw [hw] at h
            simp only [] at h
            cases hl : parseListF fuel r1 with
            | error e => rw [hl] at h; cases h
            | ok vr2 =>
              obtain ⟨vs2, r2⟩ := vr2
              rw [hl] at h
              simp only [Except.ok.injEq, Prod.mk.injEq] at h
              obtain ⟨h1, h2⟩ := h
              subst h2
              have c1 := ihW _ _ _ _ hw
              have c2 := ihL _ _ _ hl
              omega
        | bytes s =>
          simp only [] at h
          cases hw : parseValueWithTokenF fuel (.bytes s) r with
          | error e => rw [hw] at h; cases h
          | ok vr =>
            obtain ⟨v1, r1⟩ := vr
            rw [hw] at h
            simp only [] at h
            cases hl : parseListF fuel r1 with
            | error e => rw [hl] at h; cases h
            | ok vr2 =>
              obtain ⟨vs2, r2⟩ := vr2
              rw [hl] at h
              simp only [Except.ok.injEq, Prod.mk.injEq] at h
              obtain ⟨h1, h2⟩ := h
              subst h2
              have c1 := ihW _ _ _ _ hw
              have c2 := ihL _ _ _ hl
              omega
        | list =>
          simp only [] at h
          cases hw : parseValueWithTokenF fuel .list r with
          | error e => rw [hw] at h; cases h
          | ok vr =>
            obtain ⟨v1, r1⟩ := vr
            rw [hw] at h
            simp only [] at h
            cases hl : parseListF fuel r1 with
            | error e => rw [hl] at h; cases h
            | ok vr2 =>
              obtain ⟨vs2, r2⟩ := vr2
              rw [hl] at h
              simp only [Except.ok.injEq, Prod.mk.injEq] at h
              obtain ⟨h1, h2⟩ := h
              subst h2
              have c1 := ihW _ _ _ _ hw
              have c2 := ihL _ _ _ hl
              omega
        | map =>
          simp only [] at h
          cases hw : parseValueWithTokenF fuel .map r with
          | error e => rw [hw] at h; cases h
          | ok vr =>
            obtain ⟨v1, r1⟩ := vr
            rw [hw] at h
            simp only [] at h
            cases hl : parseListF fuel r1 with
            | error e => rw [hl] at h; cases h
            | ok vr2 =>
              obtain ⟨vs2, r2⟩ := vr2
              rw [hl] at h
              simp only [Except.ok.injEq, Prod.mk.injEq] at h
              obtain ⟨h1, h2⟩ := h
              subst h2
              have c1 := ihW _ _ _ _ hw
              have c2 := ihL _ _ _ hl
              omega
    · -- parseDictF
      intro input es rest h
      simp only [parseDictF] at h
      cases ht : parseToken input with
      | error e => rw [ht] at h; cases h
      | ok tr =>
        obtain ⟨t, r⟩ := tr
        rw [ht] at h
        have htc := parseToken_consume ht
        cases t with
        | end' =>
          simp only [Except.ok.injEq, Prod.mk.injEq] at h
          rw [← h.2]; exact htc
        | int i =>
          simp only [] at h
          cases hk : parseKeyWithTokenF fuel (.int i) r with
          | error e => rw [hk] at h; cases h
          | ok kr =>
            obtain ⟨k, r1⟩ := kr
            rw [hk] at h
            simp only [] at h
            cases hv : parseValueF fuel r1 with
            | error e => rw [hv] at h; cases h
            | ok vr =>
              obtain ⟨v1, r2⟩ := vr
              rw [hv] at h
              simp only [] at h
              cases hd : parseDictF fuel r2 with
              | error e => rw [hd] at h; cases h
              | ok er2 =>
                obtain ⟨es2, r3⟩ := er2
                rw [hd] at h
                simp only [Except.ok.injEq, Prod.mk.injEq] at h
                obtain ⟨h1, h2⟩ := h
                subst h2
                have c1 := ihK _ _ _ _ hk
                have c2 := ihV _ _ _ hv
                have c3 := ihD _ _ _ hd
                omega
        | bytes s =>
          simp only [] at h
          cases hk : parseKeyWithTokenF fuel (.bytes s) r with
          | error e => rw [hk] at h; cases h
          | ok kr =>
            obtain ⟨k, r1⟩ := kr
            rw [hk] at h
            simp only [] at h
            cases hv : parseValueF fuel r1 with
            | error e => rw [hv] at h; cases h
            | ok vr =>
              obtain ⟨v1, r2⟩ := vr
              rw [hv] at h
              simp only [] at h
              cases hd : parseDictF fuel r2 with
              | error e => rw [hd] at h; cases h
              | ok er2 =>
                obtain ⟨es2, r3⟩ := er2
                rw [hd] at h
                simp only [Except.ok.injEq, Prod.mk.injEq] at h
                obtain ⟨h1, h2⟩ := h
                subst h2
                have c1 := ihK _ _ _ _ hk
                have c2 := ihV _ _ _ hv
                have c3 := ihD _ _ _ hd
                omega
        | list =>
          simp only [] at h
          cases hk : parseKeyWithTokenF fuel .list r with
          | error e => rw [hk] at h; cases h
          | ok kr =>
            obtain ⟨k, r1⟩ := kr
            rw [hk] at h
            simp only [] at h
            cases hv : parseValueF fuel r1 with
            | error e => rw [hv] at h; cases h
            | ok vr =>
              obtain ⟨v1, r2⟩ := vr
              rw [hv] at h
              simp only [] at h
              cases hd : parseDictF fuel r2 with
              | error e => rw [hd] at h; cases h
              | ok er2 =>
                obtain ⟨es2, r3⟩ := er2
                rw [hd] at h
                simp only [Except.ok.injEq, Prod.mk.injEq] at h
                obtain ⟨h1, h2⟩ := h
                subst h2
                have c1 := ihK _ _ _ _ hk
                have c2 := ihV _ _ _ hv
                have c3 := ihD _ _ _ hd
                omega
        | map =>
          simp only [] at h
          cases hk : parseKeyWithTokenF fuel .map r with
          | error e => rw [hk] at h; cases h
          | ok kr =>
            obtain ⟨k, r1⟩ := kr
            rw [hk] at h
            simp only [] at h
            cases hv : parseValueF fuel r1 with
            | error e => rw [hv] at h; cases h
            | ok vr =>
              obtain ⟨v1, r2⟩ := vr
              rw [hv] at h
              simp only [] at h
              cases hd : parseDictF fuel r2 with
              | error e => rw [hd] at h; cases h
              | ok er2 =>
                obtain ⟨es2, r3⟩ := er2
                rw [hd] at h
                simp only [Except.ok.injEq, Prod.mk.injEq] at h
                obtain ⟨h1, h2⟩ := h
                subst h2
                have c1 := ihK _ _ _ _ hk
                have c2 := ihV _ _ _ hv
                have c3 := ihD _ _ _ hd
                omega
    · -- parseKeyWithTokenF
      intro t input k rest h
      cases t with
      | bytes s =>
        simp only [parseKeyWithTokenF, Except.ok.injEq, Prod.mk.injEq] at h
        rw [← h.2]
      | int i => cases h
      | map => cases h
      | end' => cases h
      | list =>
        simp only [parseKeyWithTokenF] at h
        cases hu : parseU8ListF fuel input with
        | error e => rw [hu] at h; cases h
        | ok br =>
          obtain ⟨bs, r⟩ := br
          rw [hu] at h
          simp only [Except.ok.injEq, Prod.mk.injEq] at h
          obtain ⟨h1, h2⟩ := h
          subst h2
          have := ihU _ _ _ hu
          omega
    · -- parseU8ListF
      intro input bs rest h
      simp only [parseU8ListF] at h
      cases ht : parseToken input with
      | error e => rw [ht] at h; cases h
      | ok tr =>
        obtain ⟨t, r⟩ := tr
        rw [ht] at h
        have htc := parseToken_consume ht
        cases t with
        | end' =>
          simp only [Except.ok.injEq, Prod.mk.injEq] at h
          rw [← h.2]; exact htc
        | int i =>
          simp only [] at h
          by_cases hr : 0 ≤ i ∧ i ≤ 255
          · rw [if_pos hr] at h
            cases hu : parseU8ListF fuel r with
            | error e => rw [hu] at h; cases h
            | ok br2 =>
              obtain ⟨bs2, r2⟩ := br2
              rw [hu] at h
              simp only [Except.ok.injEq, Prod.mk.injEq] at h
              obtain ⟨h1, h2⟩ := h
              subst h2
              have := ihU _ _ _ hu
              omega
          · rw [if_neg hr] at h; cases h
        | bytes s => cases h
        | list => cases h
        | map => cases h

/-! ### One-step unfoldings with the end-of-aggregate test as an `if` -/

theorem parseListF_succ (fuel : Nat) (input : List Nat) :
    parseListF (fuel + 1) input =
      match parseToken input with
      | .error e => .error e
      | .ok (t, rest) =>
        if t = .end' then .ok ([], rest)
        else
          match parseValueWithTokenF fuel t rest with
          | .error e => .error e
          | .ok (v, rest1) =>
            match parseListF fuel rest1 with
            | .error e => .error e
            | .ok (vs, rest2) => .ok (v :: vs, rest2) := by
  simp only [parseListF]
  cases parseToken input with
  | error e => rfl
  | ok tr =>
    obtain ⟨t, r⟩ := tr
    cases t <;> rfl

theorem parseDictF_succ (fuel : Nat) (input : List Nat) :
    parseDictF (fuel + 1) input =
      match parseToken input with
      | .error e => .error e
      | .ok (t, rest) =>
        if t = .end' then .ok ([], rest)
        else
          match parseKeyWithTokenF fuel t rest with
          | .error e => .error e
          | .ok (k, rest1) =>
            match parseValueF fuel rest1 with
            | .error e => .error e
            | .ok (v, rest2) =>
              match parseDictF fuel rest2 with
              | .error e => .error e
              | .ok (es, rest3) => .ok ((k, v) :: es, rest3) := by
  simp only [parseDictF]
  cases parseToken input with
  | error e => rfl
  | ok tr =>
    obtain ⟨t, r⟩ := tr
    cases t <;> rfl

theorem parseU8ListF_succ (fuel : Nat) (input : List Nat) :
    parseU8ListF (fuel + 1) input =
      match parseToken input with
      | .error e => .error e
      | .ok (t, rest) =>
        if t = .end' then .ok ([], rest)
        else
          match t with
          | .int i =>
            if 0 ≤ i ∧ i ≤ 255 then
              match parseU8ListF fuel rest with
              | .error e => .error e
              | .ok (bs, rest1) => .ok (i.toNat :: bs, rest1)
            else .error .invalidValue
          | _ => .error .invalidType := by
  simp only [parseU8ListF]
  cases parseToken input with
  | error e => rfl
  | ok tr =>
    obtain ⟨t, r⟩ := tr
    cases t <;> rfl

/-! ### Fuel stability: above `2·length + 2` (`+ 3` for the token-dispatch
helpers, which consume nothing themselves) the result no longer depends on
the fuel -/

theorem parseStepAll (fuel : Nat) :
    (∀ input, 2 * input.length + 2 ≤ fuel →
      parseValueF (fuel + 1) input = parseValueF fuel input) ∧
    (∀ t input, 2 * input.length + 3 ≤ fuel →
      parseValueWithTokenF (fuel + 1) t input = parseValueWithTokenF fuel t input) ∧
    (∀ input, 2 * input.length + 2 ≤ fuel →
      parseListF (fuel + 1) input = parseListF fuel input) ∧
    (∀ input, 2 * input.length + 2 ≤ fuel →
      parseDictF (fuel + 1) input = parseDictF fuel input) ∧
    (∀ t input, 2 * input.length + 3 ≤ fuel →
      parseKeyWithTokenF (fuel + 1) t input = parseKeyWithTokenF fuel t input) ∧
    (∀ input, 2 * input.length + 2 ≤ fuel →
      parseU8ListF (fuel + 1) input = parseU8ListF fuel input) := by
  induction fuel with
  | zero =>
    refine ⟨?_, ?_, ?_, ?_, ?_, ?_⟩ <;> intros <;> omega
  | succ fuel ih =>
    obtain ⟨ihV, ihW, ihL, ihD, ihK, ihU⟩ := ih
    refine ⟨?_, ?_, ?_, ?_, ?_, ?_⟩
    · -- parseValueF
      intro input h
      simp only [parseValueF]
      cases ht : parseToken input with
      | error e => rfl
      | ok tr =>
        obtain ⟨t, r⟩ := tr
        have hc := parseToken_consume ht
        exact ihW t r (by omega)
    · -- parseValueWithTokenF
      intro t input h
      cases t with
      | int i => rfl
      | bytes s => rfl
      | end' => rfl
      | list =>
        simp only [parseValueWithTokenF]
        rw [ihL input (by omega)]
      | map =>
        simp only [parseValueWithTokenF]
        rw [ihD input (by omega)]
    · -- parseListF
      intro input h
      rw [parseListF_succ, parseListF_succ]
      cases ht : parseToken input with
      | error e => rfl
      | ok tr =>
        obtain ⟨t, r⟩ := tr
        have hc := parseToken_consume ht
        simp only []
        by_cases hte : t = .end'
        · rw [if_pos hte, if_pos hte]
        · rw [if_neg hte, if_neg hte]
          rw [ihW t r (by omega)]
          cases hw : parseValueWithTokenF fuel t r with
          | error e => rfl
          | ok vr =>
            obtain ⟨v, r1⟩ := vr
            have hcw := ((parseConsumeAll fuel).2.1) t r v r1 hw
            simp only []
            rw [ihL r1 (by omega)]
    · -- parseDictF
      intro input h
      rw [parseDictF_succ, parseDictF_succ]
      cases ht : parseToken input with
      | error e => rfl
      | ok tr =>
        obtain ⟨t, r⟩ := tr
        have hc := parseToken_consume ht
        simp only []
        by_cases hte : t = .end'
        · rw [if_pos hte, if_pos hte]
        · rw [if_neg hte, if_neg hte]
          rw [ihK t r (by omega)]
          cases hk : parseKeyWithTokenF fuel t r with
          | error e => rfl
          | ok kr =>
            obtain ⟨k, r1⟩ := kr
            have hck := ((parseConsumeAll fuel).2.2.2.2.1) t r k r1 hk
            simp only []
            rw [ihV r1 (by omega)]
            cases hv : parseValueF fuel r1 with
            | error e => rfl
            | ok vr =>
              obtain ⟨v, r2⟩ := vr
              have hcv := ((parseConsumeAll fuel).1) r1 v r2 hv
              simp only []
              rw [ihD r2 (by omega)]
    · -- parseKeyWithTokenF
      intro t input h
      cases t with
      | int i => rfl
      | bytes s => rfl
      | end' => rfl
      | map => rfl
      | list =>
        simp only [parseKeyWithTokenF]
        rw [ihU input (by omega)]
    · -- parseU8ListF
      intro input h
      rw [parseU8ListF_succ, parseU8ListF_succ]
      cases ht : parseToken input with
      | error e => rfl
      | ok tr =>
        obtain ⟨t, r⟩ := tr
        have hc := parseToken_consume ht
        simp only []
        by_cases hte : t = .end'
        · rw [if_pos hte, if_pos hte]
        · rw [if_neg hte, if_neg hte]
          cases t with
          | end' => rfl
          | bytes s => rfl
          | list => rfl
          | map => rfl
          | int i =>
            simp only []
            by_cases hr : 0 ≤ i ∧ i ≤ 255
            · rw [if_pos hr, if_pos hr, ihU r (by omega)]
            · rw [if_neg hr, if_neg hr]

/-- Any two sufficient fuels give the same parse. -/

theorem parseValueF_stable {f g : Nat} {input : List Nat}
    (hf : 2 * input.length + 2 ≤ f) (hg : 2 * input.length + 2 ≤ g) :
    parseValueF f input = parseValueF g input := by
  have step : ∀ k base, 2 * input.length + 2 ≤ base →
      parseValueF (base + k) input = parseValueF base input := by
    intro k
    induction k with
    | zero => intro base _; rfl
    | succ k ihk =>
      intro base hb
      have : base + (k + 1) = (base + k) + 1 := by omega
      rw [this, (parseStepAll (base + k)).1 input (by omega), ihk base hb]
  rcases Nat.le_total f g with hfg | hfg
  · have : g = f + (g - f) := by omega
    rw [this, step (g - f) f hf]
  · have : f = g + (f - g) := by omega
    rw [this, step (f - g) g hg]

/-! ## Facts about well-formedness, encoding shape and sorting -/

theorem wfList_mem {xs : List Value} (h : Value.wfList xs = true) :
    ∀ x ∈ xs, x.wf = true := by
  induction xs with
  | nil => intro x hx; cases hx
  | cons v vs ih =>
    simp only [Value.wfList, Bool.and_eq_true] at h
    intro x hx
    rcases List.mem_cons.mp hx with hx | hx
    · rw [hx]; exact h.1
    · exact ih h.2 x hx

theorem wfEntries_mem {xs : List (List Nat × Value)} (h : Value.wfEntries xs = true) :
    ∀ kv ∈ xs, byteStrWf kv.1 = true ∧ kv.2.wf = true := by
  induction xs with
  | nil => intro kv hkv; cases hkv
  | cons kv0 rest ih =>
    obtain ⟨k, v⟩ := kv0
    simp only [Value.wfEntries, Bool.and_eq_true] at h
    intro kv hkv
    rcases List.mem_cons.mp hkv with hkv | hkv
    · rw [hkv]; exact ⟨h.1.1, h.1.2⟩
    · exact ih h.2 kv hkv

theorem byteStrWf_len {s : List Nat} (h : byteStrWf s = true) : s.length < 2 ^ 64 := by
  simp only [byteStrWf, Bool.and_eq_true, decide_eq_true_eq] at h
  exact h.1

theorem encodeValue_ne_nil (v : Value) : encodeValue v ≠ [] := by
  cases v with
  | bytes s =>
    simp only [encodeValue, encBytes]
    intro h
    exact encNat_ne_nil s.length (List.append_eq_nil.mp h).1
  | int i => simp [encodeValue, intBytes]
  | list xs => simp [encodeValue]
  | dict xs => simp [encodeValue, mapSerialize, endMap]

theorem encodeEntries_eq_map (xs : List (List Nat × Value)) :
    encodeEntries xs = xs.map fun kv => (kv.1, encodeValue kv.2) := by
  induction xs with
  | nil => rfl
  | cons kv rest ih =>
    obtain ⟨k, v⟩ := kv
    simp [encodeEntries, ih]

theorem sortEntries_eq_map (xs : List (List Nat × Value)) :
    sortEntries xs = xs.map fun kv => (kv.1, sortValue kv.2) := by
  induction xs with
  | nil => rfl
  | cons kv rest ih =>
    obtain ⟨k, v⟩ := kv
    simp [sortEntries, ih]

theorem sortList_eq_map (xs : List Value) : sortList xs = xs.map sortValue := by
  induction xs with
  | nil => rfl
  | cons v vs ih => simp [sortList, ih]

theorem runEntries_aux (raw acc : List (List Nat × List Nat)) :
    raw.foldl (fun es kv => serializeEntryB es kv.1 kv.2) acc =
      acc ++ raw.filter fun kv => !kv.2.isEmpty := by
  induction raw generalizing acc with
  | nil => simp
  | cons kv rest ih =>
    obtain ⟨k, v⟩ := kv
    rw [List.foldl_cons]
    by_cases hv : v.isEmpty
    · rw [show serializeEntryB acc k v = acc from by simp [serializeEntryB, hv]]
      rw [ih acc]
      simp [List.filter_cons, hv]
    · rw [show serializeEntryB acc k v = acc ++ [(k, v)] from by simp [serializeEntryB, hv]]
      rw [ih (acc ++ [(k, v)])]
      simp [List.filter_cons, hv]

/-- `serialize_entry` only ever drops entries whose value bytes are empty. -/

theorem runEntries_eq_filter (raw : List (List Nat × List Nat)) :
    runEntries raw = raw.filter fun kv => !kv.2.isEmpty := by
  simpa using runEntries_aux raw []

/-- Sorting by keys commutes with mapping over the values. -/

theorem orderedInsert_map_comm {α β : Type} (f : α → β) (k : List Nat) (v : α)
    (l : List (List Nat × α)) :
    List.orderedInsert keyLe (k, f v) (l.map fun kv => (kv.1, f kv.2)) =
      (List.orderedInsert keyLe (k, v) l).map fun kv => (kv.1, f kv.2) := by
  induction l with
  | nil => rfl
  | cons kv rest ih =>
    obtain ⟨k2, v2⟩ := kv
    simp only [List.map_cons, List.orderedInsert]
    by_cases h : lexLe k k2 = true
    · rw [if_pos (show keyLe (k, f v) (k2, f v2) from h),
        if_pos (show keyLe (k, v) (k2, v2) from h)]
      rfl
    · rw [if_neg (show ¬ keyLe (k, f v) (k2, f v2) from h),
        if_neg (show ¬ keyLe (k, v) (k2, v2) from h), List.map_cons, ih]

theorem insertionSort_map_comm {α β : Type} (f : α → β) (l : List (List Nat × α)) :
    List.insertionSort keyLe (l.map fun kv => (kv.1, f kv.2)) =
      (List.insertionSort keyLe l).map fun kv => (kv.1, f kv.2) := by
  induction l with
  | nil => rfl
  | cons kv rest ih =>
    obtain ⟨k, v⟩ := kv
    simp only [List.map_cons, List.insertionSort, ih]
    exact orderedInsert_map_comm f k v (List.insertionSort keyLe rest)

/-! ## Round-trip: decoding an encoded `Value` -/

theorem parseValueWithTokenF_end (fuel : Nat) (input : List Nat) :
    parseValueWithTokenF fuel .end' input = .error .endOfStream := by
  cases fuel <;> rfl

theorem parseToken_lCons (rest : List Nat) :
    parseToken (108 :: rest) = .ok (.list, rest) := by
  simp [parseToken, isDigitByte]

theorem parseToken_dCons (rest : List Nat) :
    parseToken (100 :: rest) = .ok (.map, rest) := by
  simp [parseToken, isDigitByte]

theorem parseToken_eCons (rest : List Nat) :
    parseToken (101 :: rest) = .ok (.end', rest) := by
  simp [parseToken, isDigitByte]

theorem parseListF_encodeList (xs : List Value)
    (hmem : ∀ x ∈ xs, ∀ (extra : List Nat) (fuel : Nat),
      2 * (encodeValue x ++ extra).length + 2 ≤ fuel →
      parseValueF fuel (encodeValue x ++ extra) = .ok (sortValue x, extra)) :
    ∀ (extra : List Nat) (fuel : Nat),
      2 * (encodeList xs ++ 101 :: extra).length + 2 ≤ fuel →
      parseListF fuel (encodeList xs ++ 101 :: extra) = .ok (sortList xs, extra) := by
  induction xs with
  | nil =>
    intro extra fuel h
    obtain ⟨f, rfl⟩ : ∃ f, fuel = f + 1 := ⟨fuel - 1, by omega⟩
    rw [parseListF_succ]
    simp only [encodeList, List.nil_append]
    rw [parseToken_eCons]
    simp [sortList]
  | cons x xs ih =>
    intro extra fuel h
    obtain ⟨f, rfl⟩ : ∃ f, fuel = f + 1 := ⟨fuel - 1, by omega⟩
    have hx := hmem x (List.mem_cons_self x xs)
    have hxs : ∀ y ∈ xs, ∀ (extra : List Nat) (fuel : Nat),
        2 * (encodeValue y ++ extra).length + 2 ≤ fuel →
        parseValueF fuel (encodeValue y ++ extra) = .ok (sortValue y, extra) :=
      fun y hy => hmem y (List.mem_cons_of_mem x hy)
    have hin : encodeList (x :: xs) ++ 101 :: extra
        = encodeValue x ++ (encodeList xs ++ 101 :: extra) := by
      simp [encodeList, List.append_assoc]
    rw [hin] at h ⊢
    have hV := hx (encodeList xs ++ 101 :: extra) (f + 1) h
    simp only [parseValueF] at hV
    cases ht : parseToken (encodeValue x ++ (encodeList xs ++ 101 :: extra)) with
    | error e => rw [ht] at hV; cases hV
    | ok tr =>
      obtain ⟨t, r⟩ := tr
      rw [ht] at hV
      simp only [] at hV
      have hne : t ≠ .end' := by
        intro hte
        rw [hte, parseValueWithTokenF_end] at hV
        cases hV
      rw [parseListF_succ, ht]
      simp only []
      rw [if_neg hne, hV]
      simp only []
      have hlenx : 0 < (encodeValue x).length :=
        List.length_pos.mpr (encodeValue_ne_nil x)
      have hnext : 2 * (encodeList xs ++ 101 :: extra).length + 2 ≤ f := by
        simp only [List.length_append] at h ⊢
        omega
      rw [ih hxs extra f hnext]
      simp [sortList]

theorem parseDictF_encodeEntries (qs : List (List Nat × Value))
    (hmem : ∀ kv ∈ qs, kv.1.length < 2 ^ 64 ∧
      ∀ (extra : List Nat) (fuel : Nat),
        2 * (encodeValue kv.2 ++ extra).length + 2 ≤ fuel →
        parseValueF fuel (encodeValue kv.2 ++ extra) = .ok (sortValue kv.2, extra)) :
    ∀ (extra : List Nat) (fuel : Nat),
      2 * ((qs.map fun kv => encBytes kv.1 ++ encodeValue kv.2).flatten
            ++ 101 :: extra).length + 2 ≤ fuel →
      parseDictF fuel ((qs.map fun kv => encBytes kv.1 ++ encodeValue kv.2).flatten
            ++ 101 :: extra)
        = .ok (qs.map fun kv => (kv.1, sortValue kv.2), extra) := by
  induction qs with
  | nil =>
    intro extra fuel h
    obtain ⟨f, rfl⟩ : ∃ f, fuel = f + 1 := ⟨fuel - 1, by omega⟩
    rw [parseDictF_succ]
    simp only [List.map_nil, List.flatten_nil, List.nil_append]
    rw [parseToken_eCons]
    simp

  | cons kv qs ih =>
    obtain ⟨k, v⟩ := kv
    intro extra fuel h
    have hk := (hmem (k, v) (List.mem_cons_self (k, v) qs)).1
    have hv := (hmem (k, v) (List.mem_cons_self (k, v) qs)).2
    have hqs : ∀ kv ∈ qs, kv.1.length < 2 ^ 64 ∧
        ∀ (extra : List Nat) (fuel : Nat),
          2 * (encodeValue kv.2 ++ extra).length + 2 ≤ fuel →
          parseValueF fuel (encodeValue kv.2 ++ extra) = .ok (sortValue kv.2, extra) :=
      fun kv2 hkv2 => hmem kv2 (List.mem_cons_of_mem (k, v) hkv2)
    have hin : ((((k, v) :: qs).map fun kv => encBytes kv.1 ++ encodeValue kv.2).flatten
          ++ 101 :: extra)
        = encBytes k ++ (encodeValue v ++
            ((qs.map fun kv => encBytes kv.1 ++ encodeValue kv.2).flatten ++ 101 :: extra)) := by
      simp [List.append_assoc]
    rw [hin] at h ⊢
    have hlenk : 0 < (encNat k.length).length :=
      List.length_pos.mpr (encNat_ne_nil k.length)
    have hlenB : (encBytes k).length = (encNat k.length).length + 1 + k.length := by
      simp [encBytes]
      omega
    have hlenv : 0 < (encodeValue v).length :=
      List.length_pos.mpr (encodeValue_ne_nil v)
    obtain ⟨f, rfl⟩ : ∃ f, fuel = f + 1 + 1 := by
      refine ⟨fuel - 2, ?_⟩
      simp only [List.length_append] at h
      omega
    rw [parseDictF_succ]
    rw [parseToken_encBytes hk]
    simp only []
    rw [if_neg (by intro hh; cases hh)]
    have hkey : parseKeyWithTokenF (f + 1) (.bytes k)
        (encodeValue v ++ ((qs.map fun kv => encBytes kv.1 ++ encodeValue kv.2).flatten
          ++ 101 :: extra)) = .ok (k, encodeValue v ++
            ((qs.map fun kv => encBytes kv.1 ++ encodeValue kv.2).flatten ++ 101 :: extra)) := by
      rfl
    rw [hkey]
    simp only []
    have hVlen : 2 * (encodeValue v ++
        ((qs.map fun kv => encBytes kv.1 ++ encodeValue kv.2).flatten
          ++ 101 :: extra)).length + 2 ≤ f + 1 := by
      simp only [List.length_append] at h ⊢
      omega
    rw [hv _ (f + 1) hVlen]
    simp only []
    have hDlen : 2 * ((qs.map fun kv => encBytes kv.1 ++ encodeValue kv.2).flatten
        ++ 101 :: extra).length + 2 ≤ f + 1 := by
      simp only [List.length_append] at h ⊢
      omega
    rw [ih hqs extra (f + 1) hDlen]
    simp

theorem encode_roundtrip : ∀ v : Value, Value.wf v = true →
    ∀ (extra : List Nat) (fuel : Nat),
      2 * (encodeValue v ++ extra).length + 2 ≤ fuel →
      parseValueF fuel (encodeValue v ++ extra) = .ok (sortValue v, extra) := by
  intro v
  induction v using Value.myInduction with
  | hb s =>
    intro hwf extra fuel h
    simp only [Value.wf] at hwf
    have hlen := byteStrWf_len hwf
    obtain ⟨f, rfl⟩ : ∃ f, fuel = f + 1 + 1 := by
      refine ⟨fuel - 2, ?_⟩
      omega
    simp only [encodeValue] at h ⊢
    simp only [parseValueF]
    rw [parseToken_encBytes hlen]
    simp only [parseValueWithTokenF, sortValue]
  | hi i =>
    intro hwf extra fuel h
    simp only [Value.wf, Bool.and_eq_true, decide_eq_true_eq] at hwf
    obtain ⟨f, rfl⟩ : ∃ f, fuel = f + 1 + 1 := by
      refine ⟨fuel - 2, ?_⟩
      omega
    simp only [encodeValue] at h ⊢
    simp only [parseValueF]
    rw [parseToken_intBytes hwf.1 hwf.2]
    simp only [parseValueWithTokenF, sortValue]
  | hl xs ih =>
    intro hwf extra fuel h
    simp only [Value.wf] at hwf
    have hmem : ∀ x ∈ xs, ∀ (extra : List Nat) (fuel : Nat),
        2 * (encodeValue x ++ extra).length + 2 ≤ fuel →
        parseValueF fuel (encodeValue x ++ extra) = .ok (sortValue x, extra) :=
      fun x hx => ih x hx (wfList_mem hwf x hx)
    have hin : encodeValue (.list xs) ++ extra
        = 108 :: (encodeList xs ++ 101 :: extra) := by
      simp [encodeValue, List.append_assoc]
    rw [hin] at h ⊢
    obtain ⟨f, rfl⟩ : ∃ f, fuel = f + 1 + 1 := by
      refine ⟨fuel - 2, ?_⟩
      simp only [List.length_cons] at h
      omega
    simp only [parseValueF]
    rw [parseToken_lCons]
    simp only [parseValueWithTokenF]
    have hlen2 : 2 * (encodeList xs ++ 101 :: extra).length + 2 ≤ f := by
      simp only [List.length_cons] at h
      omega
    rw [parseListF_encodeList xs hmem extra f hlen2]
    simp [sortValue]
  | hd xs ih =>
    intro hwf extra fuel h
    simp only [Value.wf, Bool.and_eq_true] at hwf
    have hwfe := hwf.2
    have hmemx : ∀ kv ∈ xs, kv.1.length < 2 ^ 64 ∧
        ∀ (extra : List Nat) (fuel : Nat),
          2 * (encodeValue kv.2 ++ extra).length + 2 ≤ fuel →
          parseValueF fuel (encodeValue kv.2 ++ extra) = .ok (sortValue kv.2, extra) := by
      intro kv hkv
      have hw := wfEntries_mem hwfe kv hkv
      exact ⟨byteStrWf_len hw.1, ih kv hkv hw.2⟩
    -- the emitted byte shape of the dictionary
    have hED : encodeValue (.dict xs)
        = 100 :: ((List.insertionSort keyLe xs).map
            fun kv => encBytes kv.1 ++ encodeValue kv.2).flatten ++ [101] := by
      have hfil : (encodeEntries xs).filter (fun kv => !kv.2.isEmpty) = encodeEntries xs := by
        rw [List.filter_eq_self]
        intro kv hkv
        rw [encodeEntries_eq_map] at hkv
        obtain ⟨kv0, hkv0, rfl⟩ := List.mem_map.mp hkv
        have hne : (encodeValue kv0.2).isEmpty = false :=
          List.isEmpty_eq_false.mpr (encodeValue_ne_nil kv0.2)
        simp [hne]
      rw [encodeValue, mapSerialize, runEntries_eq_filter, hfil, endMap,
        encodeEntries_eq_map, insertionSort_map_comm, List.map_map]
      rfl
    have hmemq : ∀ kv ∈ List.insertionSort keyLe xs, kv.1.length < 2 ^ 64 ∧
        ∀ (extra : List Nat) (fuel : Nat),
          2 * (encodeValue kv.2 ++ extra).length + 2 ≤ fuel →
          parseValueF fuel (encodeValue kv.2 ++ extra) = .ok (sortValue kv.2, extra) :=
      fun kv hkv => hmemx kv ((List.perm_insertionSort keyLe xs).mem_iff.mp hkv)
    have hin : encodeValue (.dict xs) ++ extra
        = 100 :: (((List.insertionSort keyLe xs).map
            fun kv => encBytes kv.1 ++ encodeValue kv.2).flatten ++ 101 :: extra) := by
      rw [hED]
      simp [List.append_assoc]
    rw [hin] at h ⊢
    obtain ⟨f, rfl⟩ : ∃ f, fuel = f + 1 + 1 := by
      refine ⟨fuel - 2, ?_⟩
      simp only [List.length_cons] at h
      omega
    simp only [parseValueF]
    rw [parseToken_dCons]
    simp only [parseValueWithTokenF]
    have hlen2 : 2 * (((List.insertionSort keyLe xs).map
        fun kv => encBytes kv.1 ++ encodeValue kv.2).flatten ++ 101 :: extra).length + 2
          ≤ f := by
      simp only [List.length_cons] at h
      omega
    rw [parseDictF_encodeEntries (List.insertionSort keyLe xs) hmemq extra f hlen2]
    have hsv : sortValue (.dict xs)
        = .dict ((List.insertionSort keyLe xs).map fun kv => (kv.1, sortValue kv.2)) := by
      simp only [sortValue, sortEntries_eq_map, insertionSort_map_comm]
    rw [hsv]

/-! ## `sortValue v` is `==`-equal to `v` (`HashMap` equality ignores order) -/

theorem equivEntries_nil_right {b : List (List Nat × Value)}
    (h : Value.equivEntries [] b) : b = [] := by
  cases b with
  | nil => rfl
  | cons y ys => cases h

theorem equivEntries_cons_right {k : List Nat} {v : Value}
    {t b : List (List Nat × Value)} (h : Value.equivEntries ((k, v) :: t) b) :
    ∃ k2 v2 bs, b = (k2, v2) :: bs ∧ k = k2 ∧ Value.equiv v v2 ∧ Value.equivEntries t bs := by
  cases b with
  | nil => cases h
  | cons y ys =>
    obtain ⟨k2, v2⟩ := y
    exact ⟨k2, v2, ys, rfl, h.1, h.2.1, h.2.2⟩

theorem equivEntries_perm {a a' b : List (List Nat × Value)}
    (hp : a.Perm a') (h : Value.equivEntries a b) :
    ∃ b', Value.equivEntries a' b' ∧ b.Perm b' := by
  induction hp generalizing b with
  | nil => exact ⟨b, h, List.Perm.refl b⟩
  | cons x p ih =>
    obtain ⟨k, v⟩ := x
    obtain ⟨k2, v2, bs, rfl, hk, hv, ht⟩ := equivEntries_cons_right h
    obtain ⟨bs', hbs', hperm⟩ := ih ht
    exact ⟨(k2, v2) :: bs', ⟨hk, hv, hbs'⟩, List.Perm.cons (k2, v2) hperm⟩
  | swap x y l =>
    obtain ⟨ky, vy⟩ := y
    obtain ⟨kx, vx⟩ := x
    obtain ⟨k2, v2, bs, rfl, hk, hv, ht⟩ := equivEntries_cons_right h
    obtain ⟨k3, v3, bs2, rfl, hk3, hv3, ht3⟩ := equivEntries_cons_right ht
    exact ⟨(k3, v3) :: (k2, v2) :: bs2, ⟨hk3, hv3, hk, hv, ht3⟩,
      List.Perm.swap (k3, v3) (k2, v2) bs2⟩
  | trans p1 p2 ih1 ih2 =>
    obtain ⟨b1, hb1, hp1⟩ := ih1 h
    obtain ⟨b2, hb2, hp2⟩ := ih2 hb1
    exact ⟨b2, hb2, List.Perm.trans hp1 hp2⟩

theorem equivList_sort {xs : List Value}
    (hmem : ∀ x ∈ xs, Value.equiv (sortValue x) x) :
    Value.equivList (sortList xs) xs := by
  induction xs with
  | nil => exact trivial
  | cons x t ih =>
    exact ⟨hmem x (List.mem_cons_self x t),
      ih fun y hy => hmem y (List.mem_cons_of_mem x hy)⟩

theorem equivEntries_sortEntries {xs : List (List Nat × Value)}
    (hmem : ∀ kv ∈ xs, Value.equiv (sortValue kv.2) kv.2) :
    Value.equivEntries (sortEntries xs) xs := by
  induction xs with
  | nil => exact trivial
  | cons kv t ih =>
    obtain ⟨k, v⟩ := kv
    exact ⟨rfl, hmem (k, v) (List.mem_cons_self (k, v) t),
      ih fun y hy => hmem y (List.mem_cons_of_mem (k, v) hy)⟩

/-- Decoding brings dictionaries back in sorted order; this is still the
same `Value` under `PartialEq` (`HashMap` equality). -/

theorem sortValue_equiv : ∀ v : Value, Value.equiv (sortValue v) v := by
  intro v
  induction v using Value.myInduction with
  | hb s => exact rfl
  | hi i => exact rfl
  | hl xs ih => exact equivList_sort ih
  | hd xs ih =>
    show ∃ zs, Value.equivEntries (List.insertionSort keyLe (sortEntries xs)) zs ∧ zs.Perm xs
    obtain ⟨zs, hzs, hperm⟩ := equivEntries_perm
      (List.perm_insertionSort keyLe (sortEntries xs)).symm (equivEntries_sortEntries ih)
    exact ⟨zs, hzs, hperm.symm⟩

/-! ## Determinism of the sorted emission under reordering of entries -/

theorem insertionSort_eq_of_perm {α : Type} {l1 l2 : List (List Nat × α)}
    (hp : l1.Perm l2) (hnd : (l1.map Prod.fst).Nodup) :
    List.insertionSort keyLe l1 = List.insertionSort keyLe l2 := by
  have hs1 : List.Sorted keyLe (List.insertionSort keyLe l1) :=
    List.sorted_insertionSort keyLe l1
  have hs2 : List.Sorted keyLe (List.insertionSort keyLe l2) :=
    List.sorted_insertionSort keyLe l2
  have hperm : (List.insertionSort keyLe l1).Perm (List.insertionSort keyLe l2) :=
    ((List.perm_insertionSort keyLe l1).trans hp).trans
      (List.perm_insertionSort keyLe l2).symm
  have hnd1 : ((List.insertionSort keyLe l1).map Prod.fst).Nodup :=
    (((List.perm_insertionSort keyLe l1).map Prod.fst).symm).nodup hnd
  have hnd2 : ((List.insertionSort keyLe l2).map Prod.fst).Nodup :=
    (hperm.map Prod.fst).nodup hnd1
  have hpw1 : List.Pairwise (fun x y : List Nat × α => x.1 ≠ y.1)
      (List.insertionSort keyLe l1) := (List.pairwise_map.mp hnd1)
  have hpw2 : List.Pairwise (fun x y : List Nat × α => x.1 ≠ y.1)
      (List.insertionSort keyLe l2) := (List.pairwise_map.mp hnd2)
  have hs1' : List.Pairwise
      (fun x y : List Nat × α => (keyLe x y ∧ x.1 ≠ y.1) ∨ x = y)
      (List.insertionSort keyLe l1) :=
    (hs1.and hpw1).imp fun hxy => Or.inl hxy
  have hs2' : List.Pairwise
      (fun x y : List Nat × α => (keyLe x y ∧ x.1 ≠ y.1) ∨ x = y)
      (List.insertionSort keyLe l2) :=
    (hs2.and hpw2).imp fun hxy => Or.inl hxy
  haveI : IsAntisymm (List Nat × α)
      (fun x y : List Nat × α => (keyLe x y ∧ x.1 ≠ y.1) ∨ x = y) := by
    constructor
    intro a b hab hba
    rcases hab with ⟨hab1, hab2⟩ | hab
    · rcases hba with ⟨hba1, hba2⟩ | hba
      · exact absurd (lexLe_antisymm hab1 hba1) hab2
      · exact hba.symm
    · exact hab
  exact List.eq_of_perm_of_sorted hperm hs1' hs2'

/-! ## Truncation safety: parsing a prefix of parseable input either
succeeds (the parse fits in the prefix) or reports `EndOfStream` -/

theorem parseTruncAll (fuel : Nat) :
    (∀ p q v r, parseValueF fuel (p ++ q) = .ok (v, r) →
      (∃ p1, parseValueF fuel p = .ok (v, p1) ∧ p1 ++ q = r) ∨
        parseValueF fuel p = .error .endOfStream) ∧
    (∀ t p q v r, parseValueWithTokenF fuel t (p ++ q) = .ok (v, r) →
      (∃ p1, parseValueWithTokenF fuel t p = .ok (v, p1) ∧ p1 ++ q = r) ∨
        parseValueWithTokenF fuel t p = .error .endOfStream) ∧
    (∀ p q vs r, parseListF fuel (p ++ q) = .ok (vs, r) →
      (∃ p1, parseListF fuel p = .ok (vs, p1) ∧ p1 ++ q = r) ∨
        parseListF fuel p = .error .endOfStream) ∧
    (∀ p q es r, parseDictF fuel (p ++ q) = .ok (es, r) →
      (∃ p1, parseDictF fuel p = .ok (es, p1) ∧ p1 ++ q = r) ∨
        parseDictF fuel p = .error .endOfStream) ∧
    (∀ t p q k r, parseKeyWithTokenF fuel t (p ++ q) = .ok (k, r) →
      (∃ p1, parseKeyWithTokenF fuel t p = .ok (k, p1) ∧ p1 ++ q = r) ∨
        parseKeyWithTokenF fuel t p = .error .endOfStream) ∧
    (∀ p q bs r, parseU8ListF fuel (p ++ q) = .ok (bs, r) →
      (∃ p1, parseU8ListF fuel p = .ok (bs, p1) ∧ p1 ++ q = r) ∨
        parseU8ListF fuel p = .error .endOfStream) := by
  induction fuel with
  | zero =>
    refine ⟨?_, ?_, ?_, ?_, ?_, ?_⟩
    · intro p q v r h; cases h
    · intro t p q v r h; cases h
    · intro p q vs r h; cases h
    · intro p q es r h; cases h
    · intro t p q k r h; cases h
    · intro p q bs r h; cases h
  | succ fuel ih =>
    obtain ⟨ihV, ihW, ihL, ihD, ihK, ihU⟩ := ih
    refine ⟨?_, ?_, ?_, ?_, ?_, ?_⟩
    · -- parseValueF
      intro p q v r h
      simp only [parseValueF] at h ⊢
      cases hfull : parseToken (p ++ q) with
      | error e => rw [hfull] at h; cases h
      | ok tr =>
        obtain ⟨t, r1⟩ := tr
        rw [hfull] at h
        simp only [] at h
        rcases parseToken_trunc hfull with ⟨p1, hp1, hp1q⟩ | heos
        · rw [hp1]
          simp only []
          rw [← hp1q] at h
          rcases ihW t p1 q v r h with ⟨p2, hp2, hp2q⟩ | heosW
          · exact Or.inl ⟨p2, hp2, hp2q⟩
          · exact Or.inr heosW
        · rw [heos]
          exact Or.inr rfl
    · -- parseValueWithTokenF
      intro t p q v r h
      cases t with
      | int i =>
        simp only [parseValueWithTokenF, Except.ok.injEq, Prod.mk.injEq] at h ⊢
        exact Or.inl ⟨p, ⟨h.1, rfl⟩, h.2⟩
      | bytes s =>
        simp only [parseValueWithTokenF, Except.ok.injEq, Prod.mk.injEq] at h ⊢
        exact Or.inl ⟨p, ⟨h.1, rfl⟩, h.2⟩
      | end' => cases h
      | list =>
        simp only [parseValueWithTokenF] at h ⊢
        cases hl : parseListF fuel (p ++ q) with
        | error e => rw [hl] at h; cases h
        | ok vr =>
          obtain ⟨vs, r1⟩ := vr
          rw [hl] at h
          simp only [Except.ok.injEq, Prod.mk.injEq] at h
          rcases ihL p q vs r1 hl with ⟨p1, hp1, hp1q⟩ | heos
          · rw [hp1]
            exact Or.inl ⟨p1, by rw [← h.1], by rw [hp1q, h.2]⟩
          · rw [heos]
            exact Or.inr rfl
      | map =>
        simp only [parseValueWithTokenF] at h ⊢
        cases hl : parseDictF fuel (p ++ q) with
        | error e => rw [hl] at h; cases h
        | ok er =>
          obtain ⟨es, r1⟩ := er
          rw [hl] at h
          simp only [Except.ok.injEq, Prod.mk.injEq] at h
          rcases ihD p q es r1 hl with ⟨p1, hp1, hp1q⟩ | heos
          · rw [hp1]
            exact Or.inl ⟨p1, by rw [← h.1], by rw [hp1q, h.2]⟩
          · rw [heos]
            exact Or.inr rfl
    · -- parseListF
      intro p q vs r h
      rw [parseListF_succ] at h ⊢
      cases hfull : parseToken (p ++ q) with
      | error e => rw [hfull] at h; cases h
      | ok tr =>
        obtain ⟨t, r1⟩ := tr
        rw [hfull] at h
        simp only [] at h
        rcases parseToken_trunc hfull with ⟨p1, hp1, hp1q⟩ | heos
        · rw [hp1]
          simp only []
          by_cases hte : t = .end'
          · rw [if_pos hte] at h ⊢
            simp only [Except.ok.injEq, Prod.mk.injEq] at h
            exact Or.inl ⟨p1, by rw [← h.1], by rw [hp1q, h.2]⟩
          · rw [if_neg hte] at h ⊢
            rw [← hp1q] at h
            cases hw : parseValueWithTokenF fuel t (p1 ++ q) with
            | error e => rw [hw] at h; cases h
            | ok vr =>
              obtain ⟨v1, r2⟩ := vr
              rw [hw] at h
              simp only [] at h
              rcases ihW t p1 q v1 r2 hw with ⟨p2, hp2, hp2q⟩ | heosW
              · rw [hp2]
                simp only []
                rw [← hp2q] at h
                cases hl : parseListF fuel (p2 ++ q) with
                | error e => rw [hl] at h; cases h
                | ok vr2 =>
                  obtain ⟨vs2, r3⟩ := vr2
                  rw [hl] at h
                  simp only [Except.ok.injEq, Prod.mk.injEq] at h
                  rcases ihL p2 q vs2 r3 hl with ⟨p3, hp3, hp3q⟩ | heosL
                  · rw [hp3]
                    exact Or.inl ⟨p3, by rw [← h.1], by rw [hp3q, h.2]⟩
                  · rw [heosL]
                    exact Or.inr rfl
              · rw [heosW]
                exact Or.inr rfl
        · rw [heos]
          exact Or.inr rfl
    · -- parseDictF
      intro p q es r h
      rw [parseDictF_succ] at h ⊢
      cases hfull : parseToken (p ++ q) with
      | error e => rw [hfull] at h; cases h
      | ok tr =>
        obtain ⟨t, r1⟩ := tr
        rw [hfull] at h
        simp only [] at h
        rcases parseToken_trunc hfull with ⟨p1, hp1, hp1q⟩ | heos
        · rw [hp1]
          simp only []
          by_cases hte : t = .end'
          · rw [if_pos hte] at h ⊢
            simp only [Except.ok.injEq, Prod.mk.injEq] at h
            exact Or.inl ⟨p1, by rw [← h.1], by rw [hp1q, h.2]⟩
          · rw [if_neg hte] at h ⊢
            rw [← hp1q] at h
            cases hk : parseKeyWithTokenF fuel t (p1 ++ q) with
            | error e => rw [hk] at h; cases h
            | ok kr =>
              obtain ⟨k1, r2⟩ := kr
              rw [hk] at h
              simp only [] at h
              rcases ihK t p1 q k1 r2 hk with ⟨p2, hp2, hp2q⟩ | heosK
              · rw [hp2]
                simp only []
                rw [← hp2q] at h
                cases hv : parseValueF fuel (p2 ++ q) with
                | error e => rw [hv] at h; cases h
                | ok vr =>
                  obtain ⟨v1, r3⟩ := vr
                  rw [hv] at h
                  simp only [] at h
                  rcases ihV p2 q v1 r3 hv with ⟨p3, hp3, hp3q⟩ | heosV
                  · rw [hp3]
                    simp only []
                    rw [← hp3q] at h
                    cases hd : parseDictF fuel (p3 ++ q) with
                    | error e => rw [hd] at h; cases h
                    | ok er2 =>
                      obtain ⟨es2, r4⟩ := er2
                      rw [hd] at h
                      simp only [Except.ok.injEq, Prod.mk.injEq] at h
                      rcases ihD p3 q es2 r4 hd with ⟨p4, hp4, hp4q⟩ | heosD
                      · rw [hp4]
                        exact Or.inl ⟨p4, by rw [← h.1], by rw [hp4q, h.2]⟩
                      · rw [heosD]
                        exact Or.inr rfl
                  · rw [heosV]
                    exact Or.inr rfl
              · rw [heosK]
                exact Or.inr rfl
        · rw [heos]
          exact Or.inr rfl
    · -- parseKeyWithTokenF
      intro t p q k r h
      cases t with
      | bytes s =>
        simp only [parseKeyWithTokenF, Except.ok.injEq, Prod.mk.injEq] at h ⊢
        exact Or.inl ⟨p, ⟨h.1, rfl⟩, h.2⟩
      | int i => cases h
      | map => cases h
      | end' => cases h
      | list =>
        simp only [parseKeyWithTokenF] at h ⊢
        cases hu : parseU8ListF fuel (p ++ q) with
        | error e => rw [hu] at h; cases h
        | ok br =>
          obtain ⟨bs, r1⟩ := br
          rw [hu] at h
          simp only [Except.ok.injEq, Prod.mk.injEq] at h
          rcases ihU p q bs r1 hu with ⟨p1, hp1, hp1q⟩ | heos
          · rw [hp1]
            exact Or.inl ⟨p1, by rw [← h.1], by rw [hp1q, h.2]⟩
          · rw [heos]
            exact Or.inr rfl
    · -- parseU8ListF
      intro p q bs r h
      rw [parseU8ListF_succ] at h ⊢
      cases hfull : parseToken (p ++ q) with
      | error e => rw [hfull] at h; cases h
      | ok tr =>
        obtain ⟨t, r1⟩ := tr
        rw [hfull] at h
        simp only [] at h
        rcases parseToken_trunc hfull with ⟨p1, hp1, hp1q⟩ | heos
        · rw [hp1]
          simp only []
          by_cases hte : t = .end'
          · rw [if_pos hte] at h ⊢
            simp only [Except.ok.injEq, Prod.mk.injEq] at h
            exact Or.inl ⟨p1, by rw [← h.1], by rw [hp1q, h.2]⟩
          · rw [if_neg hte] at h ⊢
            cases t with
            | end' => exact absurd rfl hte
            | bytes s => cases h
            | list => cases h
            | map => cases h
            | int i =>
              simp only [] at h ⊢
              by_cases hr : 0 ≤ i ∧ i ≤ 255
              · rw [if_pos hr] at h ⊢
                cases hu : parseU8ListF fuel r1 with
                | error e => rw [hu] at h; cases h
                | ok br =>
                  obtain ⟨bs2, r2⟩ := br
                  rw [hu] at h
                  simp only [Except.ok.injEq, Prod.mk.injEq] at h
                  rw [← hp1q] at hu
                  rcases ihU p1 q bs2 r2 hu with ⟨p2, hp2, hp2q⟩ | heosU
                  · rw [hp2]
                    exact Or.inl ⟨p2, by rw [← h.1], by rw [hp2q, h.2]⟩
                  · rw [heosU]
                    exact Or.inr rfl
              · rw [if_neg hr] at h
                cases h
        · rw [heos]
          exact Or.inr rfl

/-! ## Derived corollaries at the API surface -/

theorem encBytes_ne_nil (s : List Nat) : encBytes s ≠ [] := by
  simp [encBytes]

theorem decodeValueRaw_encode {v : Value} (hwf : Value.wf v = true) :
    decodeValueRaw (toBytesValue v) = .ok (sortValue v, []) := by
  have h := encode_roundtrip v hwf [] (2 * (toBytesValue v).length + 3)
    (by simp [toBytesValue])
  rw [List.append_nil] at h
  exact h

theorem fromBytesValue_encode {v : Value} (hwf : Value.wf v = true) :
    fromBytesValue (toBytesValue v) = .ok (sortValue v) := by
  rw [fromBytesValue, decodeValueRaw_encode hwf]
  rfl

/-- Decoding any truncation of a valid encoding of a (well-formed) `Value`
either succeeds or stops with `EndOfStream`. -/

theorem fromBytesValue_trunc {v : Value} {p q : List Nat} (hwf : Value.wf v = true)
    (hpq : p ++ q = toBytesValue v) :
    (∃ w, fromBytesValue p = .ok w) ∨ fromBytesValue p = .error .endOfStream := by
  have he : encodeValue v = p ++ q := hpq.symm
  have hfull : parseValueF (2 * (p ++ q).length + 3) (p ++ q) = .ok (sortValue v, []) := by
    have h := encode_roundtrip v hwf [] (2 * (p ++ q).length + 3)
      (by rw [List.append_nil, he]; omega)
    rw [List.append_nil, he] at h
    exact h
  have hplen : p.length ≤ (p ++ q).length := by simp [List.length_append]
  rcases (parseTruncAll (2 * (p ++ q).length + 3)).1 p q (sortValue v) [] hfull with
    ⟨p1, hp1, _⟩ | heos
  · left
    refine ⟨sortValue v, ?_⟩
    have hst : parseValueF (2 * p.length + 3) p = parseValueF (2 * (p ++ q).length + 3) p :=
      parseValueF_stable (by omega) (by omega)
    rw [fromBytesValue, decodeValueRaw, enoughFuel, hst, hp1]
    rfl
  · right
    have hst : parseValueF (2 * p.length + 3) p = parseValueF (2 * (p ++ q).length + 3) p :=
      parseValueF_stable (by omega) (by omega)
    rw [fromBytesValue, decodeValueRaw, enoughFuel, hst, heos]
    rfl

/-! # The claims -/

/-- C1: For every dictionary or struct encoded by the serializer (every
such encode funnels through `SerializeMap::end_map`, modelled by `endMap`),
the emitted bytes have the form `d<k1><v1>...<kn><vn>e` where the keys
appear in non-decreasing lexicographic byte order, regardless of the order
in which the entries were supplied: the emitted entry list is a permutation
of the supplied one with pairwise non-decreasing keys. -/

theorem c1_sorted_keys (entries : List (List Nat × List Nat)) :
    ∃ es : List (List Nat × List Nat),
      es.Perm entries ∧
      List.Pairwise (fun a b : List Nat × List Nat => lexLe a.1 b.1 = true) es ∧
      endMap entries = 100 :: (es.map fun kv => encBytes kv.1 ++ kv.2).flatten ++ [101] := by
  refine ⟨List.insertionSort keyLe entries, List.perm_insertionSort keyLe entries, ?_, rfl⟩
  exact List.sorted_insertionSort keyLe entries

/-- C2: For every well-formed `Value` tree `v` (bytes in `u8` range and
`Vec`-sized, integers in `i64` range, dictionary keys distinct — the
constraints the Rust types impose), `from_bytes(to_bytes(v))` succeeds and
returns a `Value` that is `==`-equal to `v` (the decoder returns the
canonical, dictionary-sorted form `sortValue v`, and `HashMap` equality
ignores entry order). -/

theorem c2_value_roundtrip (v : Value) (hwf : Value.wf v = true) :
    fromBytesValue (toBytesValue v) = .ok (sortValue v) ∧ Value.equiv (sortValue v) v :=
  ⟨fromBytesValue_encode hwf, sortValue_equiv v⟩

/-- Witness for C2 at `{"b": 2, "a": [1, "k"]}` supplied in unsorted order. -/

theorem c2_value_roundtrip_witness :
    Value.wf (.dict [([98], .int 2), ([97], .list [.int 1, .bytes [107]])]) = true ∧
    (fromBytesValue (toBytesValue (.dict [([98], .int 2), ([97], .list [.int 1, .bytes [107]])]))
        = .ok (sortValue (.dict [([98], .int 2), ([97], .list [.int 1, .bytes [107]])])) ∧
      Value.equiv (sortValue (.dict [([98], .int 2), ([97], .list [.int 1, .bytes [107]])]))
        (.dict [([98], .int 2), ([97], .list [.int 1, .bytes [107]])])) :=
  ⟨by rfl, c2_value_roundtrip _ (by rfl)⟩

/-- C3: Two maps holding the same `(key, value)` pairs in different supply
orders serialize to byte-for-byte identical output (keys must be distinct,
as they are in a `HashMap`). -/

theorem c3_map_determinism (e1 e2 : List (List Nat × Value))
    (hperm : e1.Perm e2) (hnd : (e1.map Prod.fst).Nodup) :
    toBytesValue (.dict e1) = toBytesValue (.dict e2) := by
  simp only [toBytesValue, encodeValue, mapSerialize, runEntries_eq_filter,
    encodeEntries_eq_map, endMap]
  have hpm : ((e1.map fun kv => (kv.1, encodeValue kv.2)).filter
        fun kv => !kv.2.isEmpty).Perm
      ((e2.map fun kv => (kv.1, encodeValue kv.2)).filter fun kv => !kv.2.isEmpty) :=
    (hperm.map _).filter _
  have hndf : (((e1.map fun kv => (kv.1, encodeValue kv.2)).filter
      fun kv => !kv.2.isEmpty).map Prod.fst).Nodup := by
    have hsub : ((e1.map fun kv => (kv.1, encodeValue kv.2)).filter
        fun kv => !kv.2.isEmpty).Sublist (e1.map fun kv => (kv.1, encodeValue kv.2)) :=
      List.filter_sublist _
    have hmap : (e1.map fun kv => (kv.1, encodeValue kv.2)).map Prod.fst = e1.map Prod.fst := by
      rw [List.map_map]
      rfl
    exact (hmap ▸ (hsub.map Prod.fst)).nodup hnd
  rw [insertionSort_eq_of_perm hpm hndf]

/-- Witness for C3: `{"b": 1, "a": 2}` supplied in both orders. -/

theorem c3_map_determinism_witness :
    toBytesValue (.dict [([98], .int 1), ([97], .int 2)])
      = toBytesValue (.dict [([97], .int 2), ([98], .int 1)]) :=
  c3_map_determinism _ _ (List.Perm.swap ([97], Value.int 2) ([98], Value.int 1) [])
    (by decide)

/-- C4: Deserialization of any input returns a value or a typed error (it
is a total function into `Except`); the declared-length overrun `3:we`
fails with `EndOfStream`; and decoding any prefix `p` of a valid encoding
either succeeds or fails with `EndOfStream`/`InvalidValue` (in fact
`InvalidValue` never occurs on such prefixes, which proves the claim's
disjunction). -/

theorem c4_truncation_safety :
    (∀ input : List Nat,
      (∃ v r, decodeValueRaw input = .ok (v, r)) ∨ ∃ e, decodeValueRaw input = .error e) ∧
    fromBytesValue [51, 58, 119, 101] = .error .endOfStream ∧
    (∀ (v : Value) (p q : List Nat), Value.wf v = true → p ++ q = toBytesValue v →
      (∃ w, fromBytesValue p = .ok w) ∨ fromBytesValue p = .error .endOfStream ∨
        fromBytesValue p = .error .invalidValue) := by
  refine ⟨?_, by rfl, ?_⟩
  · intro input
    cases h : decodeValueRaw input with
    | ok vr => exact Or.inl ⟨vr.1, vr.2, rfl⟩
    | error e => exact Or.inr ⟨e, rfl⟩
  · intro v p q hwf hpq
    rcases fromBytesValue_trunc hwf hpq with hok | heos
    · exact Or.inl hok
    · exact Or.inr (Or.inl heos)

/-- Witness for C4's prefix clause: `p = "3:a"`, `q = "bc"`, the encoding
of the byte string `"abc"`. -/

theorem c4_truncation_safety_witness :
    Value.wf (.bytes [97, 98, 99]) = true ∧
    [51, 58, 97] ++ [98, 99] = toBytesValue (.bytes [97, 98, 99]) ∧
    ((∃ w, fromBytesValue [51, 58, 97] = .ok w) ∨
      fromBytesValue [51, 58, 97] = .error .endOfStream ∨
      fromBytesValue [51, 58, 97] = .error .invalidValue) :=
  ⟨by rfl, by rfl, c4_truncation_safety.2.2 (.bytes [97, 98, 99]) [51, 58, 97] [98, 99]
    (by rfl) (by rfl)⟩

/-- C5: `serialize_f32` and `serialize_f64` fail immediately with
`InvalidValue` and append nothing to the output buffer (the float argument
is never inspected, so the behaviour is the same for every float value). -/

theorem c5_float_rejected (buf : List Nat) :
    serializeF32 buf = (buf, .error .invalidValue) ∧
    serializeF64 buf = (buf, .error .invalidValue) :=
  ⟨rfl, rfl⟩

/-- Counterexample to C6: a unit enum variant serialized in a map-value
position (field `"f"` holding variant `"a"`) produces the nonempty encoding
`1:a`, so the entry is kept and the dictionary serializes to `d1:f1:ae` —
not to the empty dictionary `de` that "nothing is emitted in map contexts"
would give. -/

theorem c6_unit_variant_counterexample :
    (serializeUnitVariant [] [97]).1 = [49, 58, 97] ∧
    (serializeUnitVariant [] [97]).1 ≠ [] ∧
    mapSerialize [([102], (serializeUnitVariant [] [97]).1)]
      = [100, 49, 58, 102, 49, 58, 97, 101] ∧
    mapSerialize [([102], (serializeUnitVariant [] [97]).1)] ≠ [100, 101] := by
  refine ⟨by rfl, by decide, by rfl, by decide⟩

/-- C6 (amended): `serialize_unit_variant` always emits the variant's tag
name as the length-prefixed byte string `<len>:<tag>` — in map contexts as
well, where the entry is therefore present in the encoded dictionary (it is
`()`/unit structs and `None`, not unit variants, that emit nothing). -/

theorem c6_unit_variant_amended (buf variant k : List Nat) :
    serializeUnitVariant buf variant = (buf ++ encBytes variant, .ok ()) ∧
    mapSerialize [(k, (serializeUnitVariant [] variant).1)]
      = 100 :: (encBytes k ++ encBytes variant) ++ [101] := by
  constructor
  · rfl
  · have h1 : (serializeUnitVariant [] variant).1 = encBytes variant := rfl
    rw [h1, mapSerialize, runEntries_eq_filter]
    have h2 : ([(k, encBytes variant)].filter fun kv => !kv.2.isEmpty)
        = [(k, encBytes variant)] := by
      rw [List.filter_eq_self]
      intro kv hkv
      rw [List.mem_singleton] at hkv
      rw [hkv]
      simp [List.isEmpty_eq_false.mpr (encBytes_ne_nil variant)]
    rw [h2, endMap]
    simp [List.insertionSort, List.orderedInsert]

/-- C7: `serialize_none` writes no bytes, and a map/struct entry whose
value serialized to the empty byte span is dropped by `serialize_entry`
(so an absent optional field never appears in the output; no explicit null
exists): the entry buffer is unchanged, and a dictionary whose only entry
has an empty value encoding serializes to the empty dictionary `de`. -/

theorem c7_none_absent (buf k : List Nat) (entries : List (List Nat × List Nat)) :
    serializeNone buf = (buf, .ok ()) ∧
    serializeEntryB entries k [] = entries ∧
    mapSerialize [(k, (serializeNone []).1)] = [100, 101] :=
  ⟨rfl, rfl, rfl⟩

/-- Counterexample to C8: the lexer does not accept "exactly" the spans
`-`?digits — Rust's `i64` `FromStr` also takes a leading `+`, so `i+5e`
(outside the claimed grammar) is accepted as 5; and the 19-digit span for
`2^63` lies inside the claimed grammar but overflows `i64`, so `i9223372036854775808e`
is rejected with `InvalidValue`. -/

theorem c8_int_token_counterexample :
    specIntSpan [43, 53] = false ∧
    parseToken [105, 43, 53, 101] = .ok (.int 5, []) ∧
    specIntSpan [57, 50, 50, 51, 51, 55, 50, 48, 51, 54, 56, 53, 52, 55, 55, 53, 56, 48, 56]
      = true ∧
    parseToken (105 :: [57, 50, 50, 51, 51, 55, 50, 48, 51, 54, 56, 53, 52, 55, 55, 53,
        56, 48, 56] ++ [101]) = .error .invalidValue := by
  refine ⟨by rfl, by rfl, by rfl, by rfl⟩

/-- C8 (amended): the lexer accepts an integer token exactly when the span
between `i` and the first `e` parses as an `i64` under Rust's integer
parsing (`parseI64Span`: an optional `+` or `-` sign, then one or more
ASCII digits, value within the `i64` range); any other span between `i`
and `e` fails with `InvalidValue`. -/

theorem c8_int_token_amended (bs extra : List Nat) (hnotin : 101 ∉ bs) :
    parseToken (105 :: (bs ++ 101 :: extra)) =
      match parseI64Span bs with
      | some i => .ok (.int i, extra)
      | none => .error .invalidValue := by
  simp only [parseToken, if_true]
  rw [parseIntLoop_append hnotin [] extra]
  simp only [List.nil_append]
  cases parseI64Span bs with
  | none => rfl
  | some i => rfl

/-- Witness for C8 (amended) at the span `+5`. -/

theorem c8_int_token_amended_witness :
    (101 ∉ [43, 53]) ∧
    parseToken (105 :: ([43, 53] ++ 101 :: [])) =
      match parseI64Span [43, 53] with
      | some i => .ok (.int i, [])
      | none => .error .invalidValue :=
  ⟨by decide, c8_int_token_amended [43, 53] [] (by decide)⟩

/-- C9: when deserialization requests a string (`deserialize_str` /
`deserialize_string`, via `parse_only_bytes`) and the next token is an
integer, list start or dict start, it fails with `InvalidType`; and when it
requests an integer and the next token is a byte string, it fails with
`InvalidType` — scalars are never coerced. -/

theorem c9_no_scalar_coercion :
    (∀ (input : List Nat) (i : Int) (r : List Nat), parseToken input = .ok (.int i, r) →
      deserializeStringTok input = .error .invalidType) ∧
    (∀ (input r : List Nat), parseToken input = .ok (.list, r) →
      deserializeStringTok input = .error .invalidType) ∧
    (∀ (input r : List Nat), parseToken input = .ok (.map, r) →
      deserializeStringTok input = .error .invalidType) ∧
    (∀ (input s r : List Nat), parseToken input = .ok (.bytes s, r) →
      deserializeI64Tok input = .error .invalidType) := by
  refine ⟨?_, ?_, ?_, ?_⟩
  · intro input i r h
    rw [deserializeStringTok, parseOnlyBytes, h]
  · intro input r h
    rw [deserializeStringTok, parseOnlyBytes, h]
  · intro input r h
    rw [deserializeStringTok, parseOnlyBytes, h]
  · intro input s r h
    rw [deserializeI64Tok, h]

/-- Witness for C9: an integer token where a string is wanted (`i3e`), and
a byte-string token where an integer is wanted (`1:a`). -/

theorem c9_no_scalar_coercion_witness :
    deserializeStringTok [105, 51, 101] = .error .invalidType ∧
    deserializeI64Tok [49, 58, 97] = .error .invalidType :=
  ⟨c9_no_scalar_coercion.1 [105, 51, 101] 3 [] (by rfl),
    c9_no_scalar_coercion.2.2.2 [49, 58, 97] [97] [] (by rfl)⟩

/-- C10: serializing a `u64` above `i64::MAX` does not fail: the value is
reinterpreted two's-complement (`value as i64`) and encoded as the
corresponding negative integer `v - 2^64`. -/

theorem c10_u64_wraps (buf : List Nat) (v : Nat) (h1 : v < 2 ^ 64) (h2 : 2 ^ 63 ≤ v) :
    serializeU64 buf v = (buf ++ intBytes ((v : Int) - 2 ^ 64), .ok ()) ∧
    (v : Int) - 2 ^ 64 < 0 := by
  constructor
  · rw [serializeU64, serializeI64, i64OfU64, if_neg (by omega)]
  · omega

/-- Witness for C10: `u64::MAX` serializes as `i-1e`. -/

theorem c10_u64_wraps_witness :
    ((2 ^ 64 - 1 : Nat) < 2 ^ 64 ∧ 2 ^ 63 ≤ (2 ^ 64 - 1 : Nat)) ∧
    serializeU64 [] (2 ^ 64 - 1) = ([105, 45, 49, 101], .ok ()) := by
  refine ⟨⟨by decide, by decide⟩, ?_⟩
  have h := (c10_u64_wraps [] (2 ^ 64 - 1) (by decide) (by decide)).1
  rw [h]
  rfl
